import Mathlib

/-!
Verification of the directory cleanup and inventory tool
(`directory_cleanup_and_inventory.py`).

The development shallowly embeds the core of the program:

* the classifier `should_clean_file`,
* the walker/cleaner `clean_directory` (built on an embedding of
  `os.walk` over a filesystem tree, with fallible per-file operations),
* the hierarchy deriver `get_directory_structure`,
* the path primitives of `posixpath` (`os.sep = '/'`) that they use:
  `split`, `join`, `dirname`, `basename`, substring containment.

Python's `sorted` / `list.sort` is a stable sort; it is embedded as a
structural insertion sort (`sortLe`), which is stable and therefore
produces exactly the same list.  Machine-level failures (a `stat`,
`getsize` or `remove` call raising) are modelled by boolean flags on
each file's metadata.
-/

/-! ### Characters and lexicographic string comparison

Python compares strings lexicographically by code point; `String` in
this embedding is compared through its character list. -/

/-- Strict lexicographic order on character lists, by code point.  This
is the order Python's `<` uses on `str`. -/
def lexLt : List Char → List Char → Bool
  | [], [] => false
  | [], _ :: _ => true
  | _ :: _, [] => false
  | a :: as, b :: bs => if a < b then true else if b < a then false else lexLt as bs

/-- Embedding of Python's `<` on `str`. -/
def strLt (a b : String) : Bool := lexLt a.data b.data

/-- Embedding of Python's `<=` on `str` (total order: `a <= b ↔ ¬ b < a`). -/
def strLe (a b : String) : Bool := !(strLt b a)

/-- Embedding of Python's `str.startswith`. -/
def strStarts (s pre : String) : Bool := pre.data.isPrefixOf s.data

/-- One step of substring search: does `needle` occur in `hay`? -/
def containsSub (needle : List Char) : List Char → Bool
  | [] => needle.isEmpty
  | c :: rest => needle.isPrefixOf (c :: rest) || containsSub needle rest

/-- Embedding of Python's `needle in hay` substring test on `str`. -/
def strContainsSub (hay needle : String) : Bool := containsSub needle.data hay.data

/-! ### Stable sort (embedding of Python `sorted` / `list.sort`)

Python's sort is stable; any stable sorting algorithm computes the same
list, so a structural insertion sort is a faithful embedding (and, being
structural, it evaluates inside the kernel). -/

/-- Inserts `a` into `l` before the first element `b` with `le a b`;
keeps `a` before elements tied with it, matching a stable sort. -/
def insertLe (le : α → α → Bool) (a : α) : List α → List α
  | [] => [a]
  | b :: l => if le a b then a :: b :: l else b :: insertLe le a l

/-- Stable insertion sort; the embedding of Python's `sorted(l)` and
`l.sort()` with comparison `le`. -/
def sortLe (le : α → α → Bool) : List α → List α
  | [] => []
  | a :: l => insertLe le a (sortLe le (l))

/-! ### Path primitives (`posixpath`, `os.sep = '/'`) -/

/-- Embedding of Python's `p.split(os.sep)`: split at every `'/'`,
keeping empty parts; `"".split('/') == ['']`. -/
def splitSepL : List Char → List (List Char)
  | [] => [[]]
  | c :: rest =>
    if c = '/' then [] :: splitSepL rest
    else
      match splitSepL rest with
      | [] => [[c]]
      | h :: t => (c :: h) :: t

/-- String-level `p.split(os.sep)`. -/
def splitSep (s : String) : List String := (splitSepL s.data).map fun l => ⟨l⟩

/-- Joins path segments with single slashes; the value `os.path.join`
produces on well-formed segment chains, and the inverse of `splitSep`
on them. -/
def joinSegs : List String → String
  | [] => ""
  | [s] => s
  | s :: t :: rest => s ++ "/" ++ joinSegs (t :: rest)

/-- Embedding of `posixpath.join(a, b)` for one argument pair: an
absolute `b` discards `a`; otherwise a separator is inserted unless `a`
is empty or already ends with one. -/
def pathJoin (a b : String) : String :=
  if b.data.head? = some '/' then b
  else if a = "" then b
  else if a.data.getLast? = some '/' then a ++ b
  else a ++ "/" ++ b

/-- Embedding of `posixpath.basename(p)`: everything after the last
`'/'`. -/
def basename (p : String) : String := ⟨(p.data.reverse.takeWhile (fun c => c != '/')).reverse⟩

/-- Embedding of `posixpath.dirname(p)`: the text before the last `'/'`
(`p[:i]` with `i = p.rfind('/') + 1`), with trailing slashes stripped
unless the result consists only of slashes. -/
def dirname (p : String) : String :=
  let head := (p.data.reverse.dropWhile (fun c => c != '/')).reverse
  if head = [] then ""
  else if head.all (fun c => c == '/') then ⟨head⟩
  else ⟨(head.reverse.dropWhile (fun c => c == '/')).reverse⟩

/-! ### The classifier -/

/-- Files to clean up, from the source configuration (`CLEANUP_FILES`).
The source stores them in a `set` used only for membership tests; the
embedding keeps them as a list with the same membership. -/
def CLEANUP_FILES : List String :=
  [".DS_Store", ".localized", ".AppleDouble", ".LSOverride", "Thumbs.db",
   ".com.apple.timemachine.supported", ".DocumentRevisions-V100",
   ".Spotlight-V100", ".TemporaryItems", ".Trashes", ".VolumeIcon.icns",
   ".fseventsd", ".apdisk"]

/-- Embedding of `should_clean_file(filename, filepath)`: the four rules
in source order, each an early `return True`. -/
def should_clean_file (filename filepath : String) : Bool :=
  if strStarts filename "." then true
  else if CLEANUP_FILES.contains filename then true
  else if strStarts filename "._" then true
  else if strContainsSub filepath ".AppleDouble" then true
  else false

/-- Variant of the classifier with the denylist membership rule removed,
used to compare against `should_clean_file` for the claim that the
denylist is dead code. -/
def should_clean_file_no_denylist (filename filepath : String) : Bool :=
  if strStarts filename "." then true
  else if strStarts filename "._" then true
  else if strContainsSub filepath ".AppleDouble" then true
  else false

/-! ### The filesystem model

A tree of directories and files.  Per-file metadata carries the size and
mtime that `os.stat` / `os.path.getsize` would report, together with
three flags saying whether each of the fallible calls the walker makes
on that file (`os.path.getsize`, `os.stat`, `os.remove`) succeeds or
raises. -/

/-- Metadata of one file on disk, together with the outcome of the
fallible filesystem calls on it. -/
structure FileMeta where
  size : Nat
  mtime : Nat
  getsizeOk : Bool
  statOk : Bool
  removeOk : Bool
deriving DecidableEq, Repr

/-- A filesystem tree: a file with metadata, or a directory with named
children. -/
inductive FSTree where
  | file (m : FileMeta)
  | dir (children : List (String × FSTree))

/-- File children of a directory, with their metadata (what `os.walk`
reports as `filenames`). -/
def fileChildren (cs : List (String × FSTree)) : List (String × FileMeta) :=
  cs.filterMap fun c => match c.2 with
    | .file m => some (c.1, m)
    | .dir _ => none

/-- Name comparison used whenever the walker sorts sibling entries. -/
def nameLeF (a b : String × FileMeta) : Bool := strLe a.1 b.1

/-- Name comparison on subdirectory walk results. -/
def nameLeW (a b : String × List VE) : Bool := strLe a.1 b.1

/-- One file visit yielded by the walk: the `os.walk` `dirpath` of the
containing directory, that directory's path relative to the scan root
as segments, the filename, and the file's metadata. -/
structure VisitEntry where
  dirpath : String
  relSegs : List String
  filename : String
  meta : FileMeta
deriving DecidableEq, Repr

mutual

/-- Embedding of the `os.walk(root_path, topdown=True)` loop order of
`clean_directory`: at each directory, the (sorted) files are visited
first, then the non-hidden subdirectories are entered in sorted name
order.  Deletion of files never changes which entries `os.walk` yields,
so the walk is a function of the initial tree. -/
def walkFiles (dirpath : String) (relSegs : List String) : FSTree → List VisitEntry
  | .file _ => []
  | .dir cs =>
    (sortLe nameLeF (fileChildren cs)).map
      (fun fc => { dirpath := dirpath, relSegs := relSegs, filename := fc.1, meta := fc.2 })
    ++ ((sortLe nameLeW (walkSubs dirpath relSegs cs)).map Prod.snd).flatten

/-- Walks of the non-hidden subdirectories, keyed by subdirectory name
(file children and hidden directories — `dirnames` entries starting with
`'.'` — are skipped, mirroring `dirnames[:] = [d for d in sorted(dirnames)
if not d.startswith('.')]`). -/
def walkSubs (dirpath : String) (relSegs : List String) :
    List (String × FSTree) → List (String × List VisitEntry)
  | [] => []
  | (_, .file _) :: rest => walkSubs dirpath relSegs rest
  | (n, .dir cs) :: rest =>
    if strStarts n "." then walkSubs dirpath relSegs rest
    else (n, walkFiles (pathJoin dirpath n) (relSegs ++ [n]) (.dir cs))
      :: walkSubs dirpath relSegs rest

end

mutual

/-- The state of the filesystem after `clean_directory` ran: every
visited junk file whose `os.remove` succeeded is gone; files inside
hidden directories are never visited and stay. -/
def cleanTree (dirpath : String) : FSTree → FSTree
  | .file m => .file m
  | .dir cs => .dir (cleanChildren dirpath cs)

/-- Effect of the run on one directory's children. -/
def cleanChildren (dirpath : String) : List (String × FSTree) → List (String × FSTree)
  | [] => []
  | (n, .file m) :: rest =>
    if should_clean_file n (pathJoin dirpath n) && m.removeOk
    then cleanChildren dirpath rest
    else (n, .file m) :: cleanChildren dirpath rest
  | (n, .dir cs) :: rest =>
    (n, if strStarts n "." then .dir cs else cleanTree (pathJoin dirpath n) (.dir cs))
      :: cleanChildren dirpath rest

end

/-! ### The walker/cleaner -/

/-- Mutable run statistics (`FileStats` in the source). -/
structure FileStats where
  total_files : Nat
  cleaned_files : Nat
  cleaned_size : Nat
  errors : List String
deriving DecidableEq, Repr

/-- Fresh statistics, as built by `FileStats.__init__`. -/
def initStats : FileStats := ⟨0, 0, 0, []⟩

/-- One surviving file's inventory record (the dict built per file; the
human-readable `size` string is external formatting and is omitted). -/
structure FileInfo where
  filename : String
  relative_path : String
  raw_size : Nat
  modified : Nat
  directory : String
deriving DecidableEq, Repr

/-- Error message recorded for a file that raised
(`f"Error processing \x7bfull_path\x7d: \x7be\x7d"`; the exception text is
OS-level and omitted). -/
def errMsg (full_path : String) : String := "Error processing " ++ full_path

/-- Body of the per-file loop of `clean_directory`, acting on the
accumulated `(file_data, stats)`: count the file; if junk, best-effort
read its size (silently), then delete it (a failing delete lands in the
outer `except` and is recorded); otherwise `stat` it and append its
record, a failure being recorded instead. -/
def processEntry (acc : List FileInfo × FileStats) (e : VisitEntry) : List FileInfo × FileStats :=
  let fd := acc.1
  let st := acc.2
  let full_path := pathJoin e.dirpath e.filename
  let st : FileStats := { st with total_files := st.total_files + 1 }
  if should_clean_file e.filename full_path then
    let st : FileStats :=
      if e.meta.getsizeOk then { st with cleaned_size := st.cleaned_size + e.meta.size } else st
    if e.meta.removeOk then (fd, { st with cleaned_files := st.cleaned_files + 1 })
    else (fd, { st with errors := st.errors ++ [errMsg full_path] })
  else
    if e.meta.statOk then
      let rel_path := joinSegs (e.relSegs ++ [e.filename])
      (fd ++ [{ filename := e.filename, relative_path := rel_path, raw_size := e.meta.size,
                modified := e.meta.mtime, directory := dirname rel_path }], st)
    else (fd, { st with errors := st.errors ++ [errMsg full_path] })

/-- Result-record comparison for the final
`file_data.sort(key=lambda x: x['relative_path'])`. -/
def recLe (a b : FileInfo) : Bool := strLe a.relative_path b.relative_path

/-- Embedding of `clean_directory(root_path, stats)`.  The filesystem
found at `root_path` is passed explicitly: `none` when the path does not
exist, `some (.file m)` when it is a regular file — in both cases
`os.walk` silently yields nothing (its `scandir` error is swallowed
because `onerror` is `None`) — and `some (.dir cs)` when it is a
directory.  Returns the sorted survivor records and the statistics the
run accumulated. -/
def clean_directory (root_path : String) (fs : Option FSTree) : List FileInfo × FileStats :=
  let entries := match fs with
    | some (FSTree.dir cs) => walkFiles root_path [] (.dir cs)
    | _ => []
  let r := entries.foldl processEntry ([], initStats)
  (sortLe recLe r.1, r.2)

/-! ### The hierarchy deriver -/

/-- One directory's record in the structure inventory. -/
structure DirInfo where
  directory_path : String
  depth : Nat
  parent_directory : String
  directory_name : String
deriving DecidableEq, Repr

/-- Embedding of `directories.add(x)` on the model of the Python `set`
as a duplicate-free list. -/
def setAdd (l : List String) (x : String) : List String :=
  if x ∈ l then l else l ++ [x]

/-- The inner loop of `get_directory_structure` for one record: walk the
segments of `rel_path`, extend `current_path` by `os.path.join` (or
start it), and add `os.path.dirname(current_path)` at each level. -/
def addPathDirs (dirs : List String) (current_path : String) : List String → List String
  | [] => dirs
  | part :: rest =>
    let current' := if current_path ≠ "" then pathJoin current_path part else part
    addPathDirs (setAdd dirs (dirname current')) current' rest

/-- The `directories` set accumulated over all records by the outer loop
of `get_directory_structure`. -/
def collectDirs (file_data : List FileInfo) : List String :=
  file_data.foldl (fun dirs fi => addPathDirs dirs "" (splitSep fi.relative_path)) []

/-- The sorted `dir_list` of `get_directory_structure`: the collected
set with the empty string discarded, sorted ascending. -/
def dirList (file_data : List FileInfo) : List String :=
  sortLe strLe ((collectDirs file_data).filter (fun d => d != ""))

/-- The record built for one directory path (the `dir_info` dict). -/
def mkDirInfo (dir_path : String) : DirInfo :=
  { directory_path := dir_path
    depth := if dir_path ≠ "" then (splitSep dir_path).length else 0
    parent_directory := if dir_path ≠ "" then dirname dir_path else ""
    directory_name := if dir_path ≠ "" then basename dir_path else "" }

/-- Embedding of `get_directory_structure(file_data)`: collect the
directory set implied by the records' relative paths, discard the empty
string (`directories.discard('')`), sort, and build the per-directory
records. -/
def get_directory_structure (file_data : List FileInfo) : List DirInfo :=
  (dirList file_data).map mkDirInfo

/-- Sample inventory record (a single survivor at `a/b/c.txt`) used to
instantiate the hierarchy theorems on a concrete input. -/
def sampleFileData : List FileInfo :=
  [{ filename := "c.txt", relative_path := "a/b/c.txt", raw_size := 5,
     modified := 0, directory := "a/b" }]

/-- Core of `main()`: clean, then derive the directory structure.  CSV
serialization and the summary printing are external collaborators; no
exception escapes this pipeline, so the process always exits normally
(exit code 0) whatever the root path was. -/
def run_main (root_path : String) (fs : Option FSTree) :
    List FileInfo × List DirInfo × FileStats :=
  let r := clean_directory root_path fs
  (r.1, get_directory_structure r.1, r.2)

/-! ### Derived per-entry views of the loop body (used to state and
prove the accounting claims) -/

/-- Full path of a visited file, as the code builds it. -/
def entryFullPath (e : VisitEntry) : String := pathJoin e.dirpath e.filename

/-- Whether the classifier marks the visited file as junk. -/
def entryIsJunk (e : VisitEntry) : Bool := should_clean_file e.filename (entryFullPath e)

/-- Relative path the code computes for a surviving visited file. -/
def entryRelPath (e : VisitEntry) : String := joinSegs (e.relSegs ++ [e.filename])

/-- Segment path of a visited file relative to the root (directory
segments followed by the filename); `entryRelPath` is its join. -/
def segPath (e : VisitEntry) : List String := e.relSegs ++ [e.filename]

/-- The record a visited file contributes, if any. -/
def entryRecord (e : VisitEntry) : Option FileInfo :=
  if entryIsJunk e then none
  else if e.meta.statOk then
    some { filename := e.filename, relative_path := entryRelPath e, raw_size := e.meta.size,
           modified := e.meta.mtime, directory := dirname (entryRelPath e) }
  else none

/-- Whether the visited file is deleted and counted in `cleaned_files`. -/
def entryCleaned (e : VisitEntry) : Bool := entryIsJunk e && e.meta.removeOk

/-- The visited file's contribution to `cleaned_size` (the size is added
before the delete is attempted; an unreadable size adds nothing). -/
def entrySizeContrib (e : VisitEntry) : Nat :=
  if entryIsJunk e && e.meta.getsizeOk then e.meta.size else 0

/-- The error entry the visited file contributes, if any: a junk file
whose delete raised, or a survivor whose `stat` raised. -/
def entryError (e : VisitEntry) : Option String :=
  if entryIsJunk e then
    if e.meta.removeOk then none else some (errMsg (entryFullPath e))
  else if e.meta.statOk then none
  else some (errMsg (entryFullPath e))

/-- Entries that survive the deletion pass on the tree. -/
def entryKept (e : VisitEntry) : Bool := !(entryIsJunk e && e.meta.removeOk)

/-! ### Well-formed trees and paths -/

/-- A well-formed name of a filesystem entry: non-empty and without a
path separator (every real directory entry name satisfies this). -/
def ValidSeg (s : String) : Prop := s ≠ "" ∧ '/' ∉ s.data

/-- A well-formed relative path: every segment is a well-formed name
(this is what `os.path.relpath` produces for files below the root). -/
def ValidRelPath (p : String) : Prop := ∀ s ∈ splitSep p, ValidSeg s

instance (s : String) : Decidable (ValidSeg s) := by
  unfold ValidSeg
  infer_instance

instance (p : String) : Decidable (ValidRelPath p) := by
  unfold ValidRelPath
  infer_instance

/-- A well-formed filesystem tree: within each directory the children's
names are distinct well-formed names.  Real directory listings always
satisfy this. -/
inductive WfTree : FSTree → Prop
  | file (m : FileMeta) : WfTree (.file m)
  | dir (cs : List (String × FSTree))
      (nodupNames : (cs.map Prod.fst).Nodup)
      (validNames : ∀ p ∈ cs, ValidSeg p.1)
      (wfChildren : ∀ p ∈ cs, WfTree p.2) : WfTree (.dir cs)

mutual

/-- Structural induction principle for `FSTree` with membership-based
hypotheses for directory children. -/
def FSTree.strongInd {P : FSTree → Prop} (hf : ∀ m, P (.file m))
    (hd : ∀ cs, (∀ p ∈ cs, P p.2) → P (.dir cs)) : ∀ t, P t
  | .file m => hf m
  | .dir cs => hd cs (FSTree.strongIndList hf hd cs)

/-- Companion of `FSTree.strongInd` for child lists. -/
def FSTree.strongIndList {P : FSTree → Prop} (hf : ∀ m, P (.file m))
    (hd : ∀ cs, (∀ p ∈ cs, P p.2) → P (.dir cs)) :
    ∀ cs : List (String × FSTree), ∀ p ∈ cs, P p.2
  | c :: rest, p, hp =>
    (List.mem_cons.mp hp).elim
      (fun h => h ▸ FSTree.strongInd hf hd c.2)
      (fun h => FSTree.strongIndList hf hd rest p h)

end

/-! ## Lemmas about the lexicographic order -/

theorem lexLt_irrefl : ∀ l : List Char, lexLt l l = false := by
  intro l
  induction l with
  | nil => rfl
  | cons x xs ih => simp [lexLt, ih, lt_irrefl]

theorem lexLt_trans : ∀ a b c : List Char,
    lexLt a b = true → lexLt b c = true → lexLt a c = true := by
  intro a
  induction a with
  | nil =>
    intro b c hab hbc
    cases b <;> cases c <;> simp_all [lexLt]
  | cons x xs ih =>
    intro b c hab hbc
    cases b with
    | nil => simp [lexLt] at hab
    | cons y ys =>
      cases c with
      | nil => simp [lexLt] at hbc
      | cons z zs =>
        simp only [lexLt] at hab hbc ⊢
        rcases lt_trichotomy x y with h1 | rfl | h1
        · rcases lt_trichotomy y z with h2 | rfl | h2
          · rw [if_pos (lt_trans h1 h2)]
          · rw [if_pos h1]
          · rw [if_neg (lt_asymm h2), if_pos h2] at hbc
            exact absurd hbc (by simp)
        · rw [if_neg (lt_irrefl x), if_neg (lt_irrefl x)] at hab
          rcases lt_trichotomy x z with h2 | rfl | h2
          · rw [if_pos h2]
          · rw [if_neg (lt_irrefl x), if_neg (lt_irrefl x)] at hbc ⊢
            exact ih ys zs hab hbc
          · rw [if_neg (lt_asymm h2), if_pos h2] at hbc
            exact absurd hbc (by simp)
        · rw [if_neg (lt_asymm h1), if_pos h1] at hab
          exact absurd hab (by simp)

theorem lexLt_eq_of_not : ∀ a b : List Char,
    lexLt a b = false → lexLt b a = false → a = b := by
  intro a
  induction a with
  | nil => intro b hab _; cases b with
    | nil => rfl
    | cons y ys => simp [lexLt] at hab
  | cons x xs ih =>
    intro b hab hba
    cases b with
    | nil => simp [lexLt] at hba
    | cons y ys =>
      simp only [lexLt] at hab hba
      by_cases h1 : x < y
      · simp [h1] at hab
      · by_cases h2 : y < x
        · simp [h2] at hba
        · have hxy : x = y := le_antisymm (le_of_not_lt h2) (le_of_not_lt h1)
          simp only [if_neg h1, if_neg h2] at hab hba
          exact hxy ▸ congrArg (x :: ·) (ih ys hab hba)

theorem strLe_total (a b : String) : strLe a b = true ∨ strLe b a = true := by
  simp only [strLe, strLt, Bool.not_eq_true']
  cases h : lexLt b.data a.data
  · left; rfl
  · right
    cases h2 : lexLt a.data b.data
    · rfl
    · have := lexLt_trans _ _ _ h h2
      rw [lexLt_irrefl] at this
      exact absurd this (by simp)

theorem strLe_trans (a b c : String) (hab : strLe a b = true) (hbc : strLe b c = true) :
    strLe a c = true := by
  simp only [strLe, strLt, Bool.not_eq_true'] at hab hbc ⊢
  cases hca : lexLt c.data a.data
  · rfl
  · exfalso
    cases h1 : lexLt a.data b.data
    · have hb := lexLt_eq_of_not _ _ h1 hab
      rw [← hb, hca] at hbc
      exact absurd hbc (by simp)
    · rw [lexLt_trans _ _ _ hca h1] at hbc
      exact absurd hbc (by simp)

theorem strLe_antisymm (a b : String) (hab : strLe a b = true) (hba : strLe b a = true) :
    a = b := by
  simp only [strLe, strLt, Bool.not_eq_true'] at hab hba
  exact String.ext (lexLt_eq_of_not _ _ hba hab)

/-! ## Lemmas about the stable sort -/

theorem insertLe_perm (le : α → α → Bool) (a : α) :
    ∀ l : List α, List.Perm (insertLe le a l) (a :: l) := by
  intro l
  induction l with
  | nil => rfl
  | cons b m ih =>
    simp only [insertLe]
    by_cases h : le a b = true
    · rw [if_pos h]
    · rw [if_neg h]
      exact (ih.cons b).trans (List.Perm.swap a b m)

theorem sortLe_perm (le : α → α → Bool) : ∀ l : List α, List.Perm (sortLe le l) l := by
  intro l
  induction l with
  | nil => rfl
  | cons a m ih => exact (insertLe_perm le a (sortLe le m)).trans (ih.cons a)

theorem sortLe_length (le : α → α → Bool) (l : List α) :
    (sortLe le l).length = l.length :=
  (sortLe_perm le l).length_eq

theorem mem_insertLe (le : α → α → Bool) (a : α) (l : List α) (y : α) :
    y ∈ insertLe le a l ↔ y = a ∨ y ∈ l := by
  rw [(insertLe_perm le a l).mem_iff, List.mem_cons]

theorem mem_sortLe (le : α → α → Bool) (l : List α) (y : α) :
    y ∈ sortLe le l ↔ y ∈ l :=
  (sortLe_perm le l).mem_iff

theorem insertLe_pairwise (le : α → α → Bool)
    (htotal : ∀ a b, le a b = true ∨ le b a = true)
    (htrans : ∀ a b c, le a b = true → le b c = true → le a c = true)
    (a : α) : ∀ l : List α, l.Pairwise (fun x y => le x y = true) →
      (insertLe le a l).Pairwise (fun x y => le x y = true) := by
  intro l
  induction l with
  | nil => intro _; simp [insertLe]
  | cons b m ih =>
    intro hp
    rw [List.pairwise_cons] at hp
    simp only [insertLe]
    by_cases h : le a b = true
    · rw [if_pos h]
      refine List.Pairwise.cons ?_ (List.Pairwise.cons hp.1 hp.2)
      intro y hy
      rcases List.mem_cons.mp hy with rfl | hy
      · exact h
      · exact htrans a b y h (hp.1 y hy)
    · rw [if_neg h]
      refine List.Pairwise.cons ?_ (ih hp.2)
      intro y hy
      rcases (mem_insertLe le a m y).mp hy with rfl | hy
      · exact (htotal _ b).resolve_left h
      · exact hp.1 y hy

theorem sortLe_pairwise (le : α → α → Bool)
    (htotal : ∀ a b, le a b = true ∨ le b a = true)
    (htrans : ∀ a b c, le a b = true → le b c = true → le a c = true)
    (l : List α) : (sortLe le l).Pairwise (fun x y => le x y = true) := by
  induction l with
  | nil => simp [sortLe]
  | cons a m ih => exact insertLe_pairwise le htotal htrans a _ ih

theorem filter_insertLe_pos (le : α → α → Bool) (p : α → Bool)
    (htrans : ∀ a b c, le a b = true → le b c = true → le a c = true)
    (a : α) (hpa : p a = true) :
    ∀ l : List α, l.Pairwise (fun x y => le x y = true) →
      (insertLe le a l).filter p = insertLe le a (l.filter p) := by
  intro l
  induction l with
  | nil => simp [insertLe, hpa]
  | cons b m ih =>
    intro hp
    rw [List.pairwise_cons] at hp
    simp only [insertLe]
    by_cases h : le a b = true
    · rw [if_pos h]
      by_cases hpb : p b = true
      · simp [List.filter_cons, hpa, hpb, insertLe, h]
      · simp only [List.filter_cons, hpa, hpb, if_pos, if_neg, Bool.false_eq_true,
          ite_false, ite_true]
        cases hm : m.filter p with
        | nil => simp [insertLe]
        | cons c k =>
          have hc : c ∈ m.filter p := by rw [hm]; exact List.mem_cons_self c k
          have hcm : c ∈ m := List.mem_of_mem_filter hc
          simp [insertLe, htrans a b c h (hp.1 c hcm)]
    · rw [if_neg h]
      by_cases hpb : p b = true
      · simp [List.filter_cons, hpb, ih hp.2, insertLe, h]
      · simp [List.filter_cons, hpb, ih hp.2]

theorem filter_insertLe_neg (le : α → α → Bool) (p : α → Bool)
    (a : α) (hpa : p a = false) :
    ∀ l : List α, (insertLe le a l).filter p = l.filter p := by
  intro l
  induction l with
  | nil => simp [insertLe, hpa]
  | cons b m ih =>
    simp only [insertLe]
    by_cases h : le a b = true
    · rw [if_pos h]; simp [List.filter_cons, hpa]
    · rw [if_neg h]; simp [List.filter_cons, ih]

theorem filter_sortLe (le : α → α → Bool) (p : α → Bool)
    (htotal : ∀ a b, le a b = true ∨ le b a = true)
    (htrans : ∀ a b c, le a b = true → le b c = true → le a c = true)
    (l : List α) : (sortLe le l).filter p = sortLe le (l.filter p) := by
  induction l with
  | nil => rfl
  | cons a m ih =>
    simp only [sortLe, List.filter_cons]
    by_cases hpa : p a = true
    · rw [if_pos hpa,
        filter_insertLe_pos le p htrans a hpa _ (sortLe_pairwise le htotal htrans m),
        ih]
      rfl
    · rw [if_neg hpa, filter_insertLe_neg le p a (by simp [hpa]), ih]

theorem map_insertLe (le : α → α → Bool) (le' : β → β → Bool) (f : α → β)
    (hkey : ∀ a b, le' (f a) (f b) = le a b) (a : α) :
    ∀ l : List α, (insertLe le a l).map f = insertLe le' (f a) (l.map f) := by
  intro l
  induction l with
  | nil => rfl
  | cons b m ih =>
    simp only [insertLe, List.map_cons, hkey]
    by_cases h : le a b = true
    · simp [h]
    · simp [h, ih]

theorem map_sortLe (le : α → α → Bool) (le' : β → β → Bool) (f : α → β)
    (hkey : ∀ a b, le' (f a) (f b) = le a b) :
    ∀ l : List α, (sortLe le l).map f = sortLe le' (l.map f) := by
  intro l
  induction l with
  | nil => rfl
  | cons a m ih => simp only [sortLe, List.map_cons, map_insertLe le le' f hkey, ih]

/-! ## Prefix and substring lemmas -/

theorem isPrefixOf_append_self : ∀ l t : List Char, l.isPrefixOf (l ++ t) = true := by
  intro l t
  induction l with
  | nil => simp [List.isPrefixOf]
  | cons c cs ih => simp [List.isPrefixOf, ih]

theorem containsSub_self_append : ∀ n t : List Char, containsSub n (n ++ t) = true := by
  intro n t
  cases n with
  | nil =>
    cases t with
    | nil => rfl
    | cons c r => simp [containsSub, List.isPrefixOf]
  | cons x xs =>
    have h1 := isPrefixOf_append_self (x :: xs) t
    simp only [List.cons_append, containsSub] at h1 ⊢
    simp [h1]

theorem containsSub_append_self : ∀ a n b : List Char, containsSub n (a ++ n ++ b) = true := by
  intro a n b
  induction a with
  | nil => simpa using containsSub_self_append n b
  | cons c cs ih =>
    simp only [List.cons_append, containsSub, List.append_eq]
    rw [ih]
    simp

/-! ## The per-file loop body, described entry by entry -/

theorem processEntry_eq (fd : List FileInfo) (st : FileStats) (e : VisitEntry) :
    processEntry (fd, st) e =
      (fd ++ (entryRecord e).toList,
       { total_files := st.total_files + 1,
         cleaned_files := st.cleaned_files + (if entryCleaned e then 1 else 0),
         cleaned_size := st.cleaned_size + entrySizeContrib e,
         errors := st.errors ++ (entryError e).toList }) := by
  by_cases hj : entryIsJunk e = true <;> by_cases hg : e.meta.getsizeOk = true <;>
    by_cases hr : e.meta.removeOk = true <;> by_cases hs : e.meta.statOk = true <;>
      simp_all [processEntry, entryRecord, entryCleaned, entrySizeContrib, entryError,
        entryIsJunk, entryFullPath, entryRelPath]

theorem foldl_processEntry : ∀ (l : List VisitEntry) (fd : List FileInfo) (st : FileStats),
    l.foldl processEntry (fd, st) =
      (fd ++ l.filterMap entryRecord,
       { total_files := st.total_files + l.length,
         cleaned_files := st.cleaned_files + l.countP entryCleaned,
         cleaned_size := st.cleaned_size + (l.map entrySizeContrib).sum,
         errors := st.errors ++ l.filterMap entryError }) := by
  intro l
  induction l with
  | nil => intro fd st; simp
  | cons e m ih =>
    intro fd st
    rw [List.foldl_cons, processEntry_eq, ih]
    simp only [Prod.mk.injEq]
    refine ⟨?_, ?_⟩
    · rw [List.append_assoc]
      congr 1
      rw [List.filterMap_cons]
      cases entryRecord e <;> simp
    · simp only [FileStats.mk.injEq, List.length_cons, List.countP_cons, List.map_cons,
        List.sum_cons, List.filterMap_cons]
      refine ⟨by omega, ?_, by omega, ?_⟩
      · cases hc : entryCleaned e <;> simp [hc] <;> omega
      · rw [List.append_assoc]
        congr 1
        cases he : entryError e <;> simp

theorem length_bucket_split : ∀ l : List VisitEntry,
    l.length = l.countP entryCleaned + (l.filterMap entryRecord).length
      + (l.filterMap entryError).length := by
  intro l
  induction l with
  | nil => rfl
  | cons e m ih =>
    simp only [List.length_cons, List.countP_cons, List.filterMap_cons]
    by_cases hj : entryIsJunk e = true <;> by_cases hr : e.meta.removeOk = true <;>
      by_cases hs : e.meta.statOk = true <;>
        simp [entryCleaned, entryRecord, entryError, hj, hr, hs] <;> omega

/-! ## Claim theorems: classifier and error handling -/

/-- C1: the code contradicts this claim.  `main` performs no validation
of the root path: `os.walk` on a missing root (or on a root that is a
regular file) swallows the `scandir` error because `onerror` is `None`
and yields nothing, so the run completes normally with zero files
visited, writes two empty inventories and exits 0 — it does not abort
and produces no non-zero outcome.  This theorem evaluates the embedded
pipeline at both invalid-root shapes. -/
theorem C1_invalid_root_no_abort :
    run_main "/nonexistent" none = ([], [], initStats)
    ∧ run_main "/not-a-directory" (some (.file ⟨5, 0, true, true, true⟩))
        = ([], [], initStats) :=
  ⟨rfl, rfl⟩

/-- C2 counterexample: the denylist rule is not dead code.  On the
filename `Thumbs.db` — a denylist entry that does not start with a dot —
the classifier answers `true` with the denylist present and `false` with
it removed. -/
theorem C2_counterexample :
    should_clean_file "Thumbs.db" "/photos/Thumbs.db" = true
    ∧ should_clean_file_no_denylist "Thumbs.db" "/photos/Thumbs.db" = false :=
  ⟨rfl, rfl⟩

/-- C2 (amended): removing the denylist membership check changes the
classifier only on the filename `Thumbs.db`, the single denylist entry
not already caught by the dot-prefix rule; for every other filename the
two classifiers agree on every path. -/
theorem C2_denylist_dead_except_thumbs (filename filepath : String)
    (h : filename ≠ "Thumbs.db") :
    should_clean_file filename filepath = should_clean_file_no_denylist filename filepath := by
  unfold should_clean_file should_clean_file_no_denylist
  by_cases h1 : strStarts filename "." = true
  · rw [if_pos h1, if_pos h1]
  · rw [if_neg h1, if_neg h1]
    by_cases h2 : CLEANUP_FILES.contains filename = true
    · exfalso
      have hmem : filename ∈ CLEANUP_FILES := by
        simpa using h2
      simp only [CLEANUP_FILES, List.mem_cons, List.not_mem_nil, or_false] at hmem
      rcases hmem with rfl | rfl | rfl | rfl | rfl | rfl | rfl | rfl | rfl | rfl | rfl | rfl | rfl
        <;> first
          | exact absurd rfl h
          | exact absurd (by decide) h1
    · rw [if_neg h2]

/-- C2 witness: instantiation of the amended equivalence at a concrete
non-denylist filename. -/
theorem C2_witness :
    ("report.txt" : String) ≠ "Thumbs.db"
    ∧ should_clean_file "report.txt" "/d/report.txt"
        = should_clean_file_no_denylist "report.txt" "/d/report.txt" :=
  ⟨by decide, C2_denylist_dead_except_thumbs "report.txt" "/d/report.txt" (by decide)⟩

/-- C9: the `.AppleDouble` rule is a plain substring test on the full
path: whenever the text `.AppleDouble` occurs anywhere in the path —
also inside a longer name such as `backup.AppleDoubleOld` — the
classifier returns `true`, for every filename. -/
theorem C9_appledouble_substring (filename filepath pre post : String)
    (h : filepath = pre ++ ".AppleDouble" ++ post) :
    should_clean_file filename filepath = true := by
  have hc : strContainsSub filepath ".AppleDouble" = true := by
    subst h
    unfold strContainsSub
    rw [String.data_append, String.data_append]
    exact containsSub_append_self _ _ _
  simp [should_clean_file, hc]

/-- C9 witness: a path containing `.AppleDouble` only as part of the
longer directory name `backup.AppleDoubleOld`, with an innocuous
filename, is classified junk. -/
theorem C9_witness :
    ("/x/backup.AppleDoubleOld/notes.txt" : String)
        = "/x/backup" ++ ".AppleDouble" ++ "Old/notes.txt"
    ∧ should_clean_file "notes.txt" "/x/backup.AppleDoubleOld/notes.txt" = true :=
  ⟨by decide, C9_appledouble_substring "notes.txt" _ "/x/backup" "Old/notes.txt" (by decide)⟩

/-- C5: every visited file lands in exactly one bucket — deleted,
surviving record, or error entry — so after the run `total_files` equals
`cleaned_files` plus the number of returned records plus the number of
recorded errors (each error comes from a file that produced no record). -/
theorem C5_total_files_accounting (root_path : String) (fs : Option FSTree) :
    (clean_directory root_path fs).2.total_files =
      (clean_directory root_path fs).2.cleaned_files
      + (clean_directory root_path fs).1.length
      + (clean_directory root_path fs).2.errors.length := by
  have key : ∀ l : List VisitEntry,
      (sortLe recLe (l.foldl processEntry ([], initStats)).1,
        (l.foldl processEntry ([], initStats)).2).2.total_files =
      (sortLe recLe (l.foldl processEntry ([], initStats)).1,
        (l.foldl processEntry ([], initStats)).2).2.cleaned_files
      + (sortLe recLe (l.foldl processEntry ([], initStats)).1,
        (l.foldl processEntry ([], initStats)).2).1.length
      + (sortLe recLe (l.foldl processEntry ([], initStats)).1,
        (l.foldl processEntry ([], initStats)).2).2.errors.length := by
    intro l
    rw [foldl_processEntry]
    simp only [initStats, List.nil_append, sortLe_length]
    have := length_bucket_split l
    have herr : (l.filterMap entryError).length ≥ 0 := Nat.zero_le _
    simp only [Nat.zero_add]
    omega
  cases fs with
  | none => exact key []
  | some t =>
    cases t with
    | file m => exact key []
    | dir cs => exact key (walkFiles root_path [] (.dir cs))

/-- C3 counterexample: `cleaned_size` is not the sum of the sizes of the
files that were deleted.  On a root holding a single junk file of size
10 whose size read succeeds but whose `os.remove` raises, the run adds
10 to `cleaned_size` while deleting nothing (the tree is unchanged and
`cleaned_files` is 0), so the claimed sum — 0 — differs. -/
theorem C3_counterexample :
    (clean_directory "/r"
        (some (.dir [(".DS_Store", .file ⟨10, 0, true, true, false⟩)]))).2.cleaned_size = 10
    ∧ cleanTree "/r" (.dir [(".DS_Store", .file ⟨10, 0, true, true, false⟩)])
        = .dir [(".DS_Store", .file ⟨10, 0, true, true, false⟩)]
    ∧ (clean_directory "/r"
        (some (.dir [(".DS_Store", .file ⟨10, 0, true, true, false⟩)]))).2.cleaned_files = 0 :=
  ⟨by decide, rfl, by decide⟩

/-! ## List scanning helpers -/

theorem head?_mem : ∀ (l : List α) (c : α), l.head? = some c → c ∈ l := by
  intro l c h
  cases l with
  | nil => simp at h
  | cons a t =>
    simp only [List.head?_cons, Option.some.injEq] at h
    exact h ▸ List.mem_cons_self a t

theorem getLast?_mem : ∀ (l : List α) (c : α), l.getLast? = some c → c ∈ l := by
  intro l c h
  have := List.mem_reverse.mp (head?_mem l.reverse c (by rw [List.head?_reverse]; exact h))
  exact this

theorem takeWhile_all (p : α → Bool) :
    ∀ l : List α, (∀ x ∈ l, p x = true) → l.takeWhile p = l := by
  intro l
  induction l with
  | nil => intro _; rfl
  | cons a t ih =>
    intro h
    rw [List.takeWhile_cons, if_pos (h a (List.mem_cons_self a t)),
      ih fun x hx => h x (List.mem_cons_of_mem a hx)]

theorem dropWhile_all (p : α → Bool) :
    ∀ l : List α, (∀ x ∈ l, p x = true) → l.dropWhile p = [] := by
  intro l
  induction l with
  | nil => intro _; rfl
  | cons a t ih =>
    intro h
    rw [List.dropWhile_cons, if_pos (h a (List.mem_cons_self a t))]
    exact ih fun x hx => h x (List.mem_cons_of_mem a hx)

theorem takeWhile_append_stop (p : α → Bool) :
    ∀ (xs : List α) (y : α) (ys : List α), (∀ x ∈ xs, p x = true) → p y = false →
      (xs ++ y :: ys).takeWhile p = xs := by
  intro xs y ys hall hy
  induction xs with
  | nil => simp [List.takeWhile_cons, hy]
  | cons a t ih =>
    rw [List.cons_append, List.takeWhile_cons, if_pos (hall a (List.mem_cons_self a t)),
      ih fun x hx => hall x (List.mem_cons_of_mem a hx)]

theorem dropWhile_append_stop (p : α → Bool) :
    ∀ (xs : List α) (y : α) (ys : List α), (∀ x ∈ xs, p x = true) → p y = false →
      (xs ++ y :: ys).dropWhile p = y :: ys := by
  intro xs y ys hall hy
  induction xs with
  | nil => simp [List.dropWhile_cons, hy]
  | cons a t ih =>
    rw [List.cons_append, List.dropWhile_cons, if_pos (hall a (List.mem_cons_self a t))]
    exact ih fun x hx => hall x (List.mem_cons_of_mem a hx)

/-! ## Valid segments and joined paths -/

theorem ValidSeg.data_ne_nil {s : String} (h : ValidSeg s) : s.data ≠ [] :=
  fun hd => h.1 (String.ext hd)

theorem ValidSeg.bne_slash {s : String} (h : ValidSeg s) : ∀ c ∈ s.data, (c != '/') = true := by
  intro c hc
  simp only [bne_iff_ne, ne_eq]
  exact fun he => h.2 (he ▸ hc)

theorem joinSegs_append_last : ∀ l : List String, l ≠ [] → ∀ x : String,
    joinSegs (l ++ [x]) = joinSegs l ++ "/" ++ x := by
  intro l
  induction l with
  | nil => intro h; exact absurd rfl h
  | cons s rest ih =>
    intro _ x
    cases rest with
    | nil => rfl
    | cons t r =>
      show s ++ "/" ++ joinSegs ((t :: r) ++ [x]) = (s ++ "/" ++ joinSegs (t :: r)) ++ "/" ++ x
      rw [ih (by simp) x]
      simp [String.append_assoc]

theorem joinSegs_data_append_last (l : List String) (hl : l ≠ []) (x : String) :
    (joinSegs (l ++ [x])).data = (joinSegs l).data ++ '/' :: x.data := by
  rw [joinSegs_append_last l hl x, String.data_append, String.data_append, List.append_assoc]
  rfl

theorem joinSegs_data_ne_nil : ∀ l : List String, (∀ s ∈ l, ValidSeg s) → l ≠ [] →
    (joinSegs l).data ≠ [] := by
  intro l
  induction l with
  | nil => intro _ h; exact absurd rfl h
  | cons s rest _ =>
    intro h _
    cases rest with
    | nil => exact (h s (List.mem_cons_self s [])).data_ne_nil
    | cons t r =>
      show (s ++ "/" ++ joinSegs (t :: r)).data ≠ []
      rw [String.data_append, String.data_append]
      intro hd
      exact (h s (List.mem_cons_self s _)).data_ne_nil (by simpa using (List.append_eq_nil.mp
        (List.append_eq_nil.mp hd).1).1)

theorem joinSegs_ne_empty (l : List String) (h : ∀ s ∈ l, ValidSeg s) (hne : l ≠ []) :
    joinSegs l ≠ "" :=
  fun he => joinSegs_data_ne_nil l h hne (congrArg String.data he)

theorem joinSegs_head_ne_slash : ∀ l : List String, (∀ s ∈ l, ValidSeg s) → l ≠ [] →
    ∀ c, (joinSegs l).data.head? = some c → c ≠ '/' := by
  intro l
  induction l with
  | nil => intro _ h; exact absurd rfl h
  | cons s rest _ =>
    intro h _ c hc
    have hs := h s (List.mem_cons_self s rest)
    have hcs : c ∈ s.data := by
      cases rest with
      | nil => exact head?_mem _ _ hc
      | cons t r =>
        rw [show joinSegs (s :: t :: r) = s ++ "/" ++ joinSegs (t :: r) from rfl,
          String.data_append, String.data_append, List.head?_append, List.head?_append] at hc
        cases hd : s.data with
        | nil => exact absurd hd hs.data_ne_nil
        | cons a as =>
          rw [hd] at hc
          simp only [List.head?_cons, Option.or_some, Option.some.injEq] at hc
          subst hc
          exact List.mem_cons_self a as
    exact fun he => hs.2 (he ▸ hcs)

theorem joinSegs_last_ne_slash : ∀ l : List String, (∀ s ∈ l, ValidSeg s) → l ≠ [] →
    ∀ c, (joinSegs l).data.getLast? = some c → c ≠ '/' := by
  intro l
  induction l with
  | nil => intro _ h; exact absurd rfl h
  | cons s rest ih =>
    intro h _ c hc
    cases rest with
    | nil =>
      exact fun he => (h s (List.mem_cons_self s [])).2
        (he ▸ getLast?_mem _ _ hc)
    | cons t r =>
      rw [show joinSegs (s :: t :: r) = s ++ "/" ++ joinSegs (t :: r) from rfl,
        String.data_append, String.data_append, List.getLast?_append,
        List.getLast?_append] at hc
      have hJ : (joinSegs (t :: r)).data ≠ [] :=
        joinSegs_data_ne_nil (t :: r) (fun u hu => h u (List.mem_cons_of_mem s hu)) (by simp)
      cases hJd : (joinSegs (t :: r)).data.getLast? with
      | none => exact absurd (List.getLast?_eq_none_iff.mp hJd) hJ
      | some d =>
        rw [hJd] at hc
        simp only [Option.or_some, Option.some.injEq] at hc
        exact hc ▸ ih (fun u hu => h u (List.mem_cons_of_mem s hu)) (by simp) d hJd

theorem pathJoin_joinSegs (l : List String) (x : String) (h : ∀ s ∈ l, ValidSeg s)
    (hne : l ≠ []) (hx : ValidSeg x) :
    pathJoin (joinSegs l) x = joinSegs (l ++ [x]) := by
  have h1 : ¬ (x.data.head? = some '/') := fun hc => hx.2 (head?_mem _ _ hc)
  have h2 : ¬ (joinSegs l = "") := joinSegs_ne_empty l h hne
  have h3 : ¬ ((joinSegs l).data.getLast? = some '/') :=
    fun hc => joinSegs_last_ne_slash l h hne '/' hc rfl
  unfold pathJoin
  rw [if_neg h1, if_neg h2, if_neg h3, joinSegs_append_last l hne x]

theorem pathJoin_empty_left (x : String) (hx : ValidSeg x) : pathJoin "" x = x := by
  have h1 : ¬ (x.data.head? = some '/') := fun hc => hx.2 (head?_mem _ _ hc)
  unfold pathJoin
  rw [if_neg h1, if_pos rfl]

theorem basename_noslash (x : String) (hx : '/' ∉ x.data) : basename x = x := by
  unfold basename
  rw [takeWhile_all _ _ fun c hc => by
      simp only [bne_iff_ne, ne_eq]
      exact fun he => hx (he ▸ List.mem_reverse.mp hc),
    List.reverse_reverse]

theorem basename_joinSegs (l : List String) (x : String) (h : ∀ s ∈ l, ValidSeg s)
    (hx : ValidSeg x) : basename (joinSegs (l ++ [x])) = x := by
  cases l with
  | nil => exact basename_noslash x hx.2
  | cons s r =>
    unfold basename
    rw [joinSegs_data_append_last _ (by simp) x, List.reverse_append, List.reverse_cons,
      List.append_assoc, List.singleton_append,
      takeWhile_append_stop _ _ _ _ (fun c hc => hx.bne_slash c (List.mem_reverse.mp hc))
        (by decide),
      List.reverse_reverse]

theorem dirname_noslash (x : String) (hx : '/' ∉ x.data) : dirname x = "" := by
  unfold dirname
  rw [dropWhile_all _ _ fun c hc => by
      simp only [bne_iff_ne, ne_eq]
      exact fun he => hx (he ▸ List.mem_reverse.mp hc)]
  rfl

theorem dirname_joinSegs (l : List String) (x : String) (h : ∀ s ∈ l, ValidSeg s)
    (hx : ValidSeg x) : dirname (joinSegs (l ++ [x])) = joinSegs l := by
  cases l with
  | nil => exact dirname_noslash x hx.2
  | cons s r =>
    have hvr : ∀ u ∈ s :: r, ValidSeg u := h
    have hJ : (joinSegs (s :: r)).data ≠ [] := joinSegs_data_ne_nil _ hvr (by simp)
    unfold dirname
    rw [joinSegs_data_append_last _ (by simp) x, List.reverse_append, List.reverse_cons,
      List.append_assoc, List.singleton_append,
      dropWhile_append_stop _ _ _ _ (fun c hc => hx.bne_slash c (List.mem_reverse.mp hc))
        (by decide),
      List.reverse_cons, List.reverse_reverse]
    have hne : ¬ ((joinSegs (s :: r)).data ++ ['/'] = []) := by simp
    rw [if_neg hne]
    have hall : ¬ (((joinSegs (s :: r)).data ++ ['/']).all (fun c => c == '/') = true) := by
      intro hall
      rw [List.all_append, Bool.and_eq_true, List.all_eq_true] at hall
      cases hd : (joinSegs (s :: r)).data with
      | nil => exact hJ hd
      | cons a as =>
        have ha : a ≠ '/' :=
          joinSegs_head_ne_slash _ hvr (by simp) a (by rw [hd]; rfl)
        have := hall.1 a (by rw [hd]; exact List.mem_cons_self a as)
        exact ha (by simpa using this)
    rw [if_neg hall, List.reverse_append]
    rw [show (['/'] : List Char).reverse = ['/'] from rfl, List.singleton_append,
      List.dropWhile_cons, if_pos (by decide)]
    have hstop : (joinSegs (s :: r)).data.reverse.dropWhile (fun c => c == '/')
        = (joinSegs (s :: r)).data.reverse := by
      cases hrev : (joinSegs (s :: r)).data.reverse with
      | nil => rfl
      | cons a as =>
        have ha : a ≠ '/' := by
          refine joinSegs_last_ne_slash _ hvr (by simp) a ?_
          rw [← List.head?_reverse, hrev]
          rfl
        rw [List.dropWhile_cons, if_neg (by simpa using ha)]
    rw [hstop, List.reverse_reverse]

/-! ## Splitting joined paths -/

theorem splitSepL_ne_nil : ∀ l : List Char, splitSepL l ≠ [] := by
  intro l
  induction l with
  | nil => simp [splitSepL]
  | cons c rest ih =>
    simp only [splitSepL]
    by_cases h : c = '/'
    · rw [if_pos h]; simp
    · rw [if_neg h]
      cases hs : splitSepL rest with
      | nil => simp
      | cons a t => simp

theorem splitSep_ne_nil (p : String) : splitSep p ≠ [] := by
  unfold splitSep
  intro hd
  exact splitSepL_ne_nil p.data (List.map_eq_nil_iff.mp hd)

theorem splitSepL_noslash : ∀ l : List Char, (∀ c ∈ l, c ≠ '/') → splitSepL l = [l] := by
  intro l
  induction l with
  | nil => intro _; rfl
  | cons c rest ih =>
    intro h
    simp only [splitSepL]
    rw [if_neg (h c (List.mem_cons_self c rest)),
      ih fun d hd => h d (List.mem_cons_of_mem c hd)]

theorem splitSepL_append : ∀ a : List Char, (∀ c ∈ a, c ≠ '/') → ∀ b : List Char,
    splitSepL (a ++ '/' :: b) = a :: splitSepL b := by
  intro a
  induction a with
  | nil => intro _ b; simp [splitSepL]
  | cons c rest ih =>
    intro h b
    rw [List.cons_append]
    simp only [splitSepL]
    rw [if_neg (h c (List.mem_cons_self c rest)),
      ih (fun d hd => h d (List.mem_cons_of_mem c hd)) b]

theorem splitSep_joinSegs : ∀ l : List String, (∀ s ∈ l, ValidSeg s) → l ≠ [] →
    splitSep (joinSegs l) = l := by
  intro l
  induction l with
  | nil => intro _ h; exact absurd rfl h
  | cons s rest ih =>
    intro h _
    cases rest with
    | nil =>
      show (splitSepL s.data).map (fun l => (⟨l⟩ : String)) = [s]
      rw [splitSepL_noslash s.data fun c hc he =>
        (h s (List.mem_cons_self s [])).2 (he ▸ hc)]
      rfl
    | cons t r =>
      have hdata : (joinSegs (s :: t :: r)).data = s.data ++ '/' :: (joinSegs (t :: r)).data := by
        rw [show joinSegs (s :: t :: r) = s ++ "/" ++ joinSegs (t :: r) from rfl,
          String.data_append, String.data_append, List.append_assoc]
        rfl
      show (splitSepL (joinSegs (s :: t :: r)).data).map (fun l => (⟨l⟩ : String)) = s :: t :: r
      rw [hdata, splitSepL_append s.data
        (fun c hc he => (h s (List.mem_cons_self s _)).2 (he ▸ hc)) _, List.map_cons]
      have := ih (fun u hu => h u (List.mem_cons_of_mem s hu)) (by simp)
      unfold splitSep at this
      rw [this]

theorem joinSegs_inj (l₁ l₂ : List String) (h1 : ∀ s ∈ l₁, ValidSeg s)
    (h2 : ∀ s ∈ l₂, ValidSeg s) (hne1 : l₁ ≠ []) (hne2 : l₂ ≠ [])
    (heq : joinSegs l₁ = joinSegs l₂) : l₁ = l₂ := by
  rw [← splitSep_joinSegs l₁ h1 hne1, ← splitSep_joinSegs l₂ h2 hne2, heq]

/-! ## Characterization of the derived directory set -/

theorem mem_setAdd (l : List String) (x y : String) : y ∈ setAdd l x ↔ y ∈ l ∨ y = x := by
  unfold setAdd
  by_cases h : x ∈ l
  · rw [if_pos h]
    constructor
    · exact Or.inl
    · rintro (hy | rfl)
      · exact hy
      · exact h
  · rw [if_neg h]
    simp

theorem setAdd_nodup (l : List String) (x : String) (hn : l.Nodup) : (setAdd l x).Nodup := by
  unfold setAdd
  by_cases h : x ∈ l
  · rw [if_pos h]; exact hn
  · rw [if_neg h]
    simp [List.nodup_append, hn, h]

theorem addPathDirs_nodup : ∀ (parts : List String) (cur : String) (dirs : List String),
    dirs.Nodup → (addPathDirs dirs cur parts).Nodup := by
  intro parts
  induction parts with
  | nil => intro cur dirs h; exact h
  | cons p rest ih =>
    intro cur dirs h
    simp only [addPathDirs]
    exact ih _ _ (setAdd_nodup _ _ h)

theorem mem_addPathDirs : ∀ (parts acc : List String) (dirs : List String),
    (∀ s ∈ acc, ValidSeg s) → (∀ s ∈ parts, ValidSeg s) →
    ∀ y, y ∈ addPathDirs dirs (joinSegs acc) parts ↔
      y ∈ dirs ∨ ∃ k < parts.length, y = joinSegs (acc ++ parts.take k) := by
  intro parts
  induction parts with
  | nil =>
    intro acc dirs _ _ y
    simp [addPathDirs]
  | cons p rest ih =>
    intro acc dirs hacc hparts y
    have hp : ValidSeg p := hparts p (List.mem_cons_self _ _)
    have hacc' : ∀ s ∈ acc ++ [p], ValidSeg s := by
      intro s hs
      rcases List.mem_append.mp hs with hs | hs
      · exact hacc s hs
      · rw [List.mem_singleton.mp hs]; exact hp
    have hcur : (if joinSegs acc ≠ "" then pathJoin (joinSegs acc) p else p)
        = joinSegs (acc ++ [p]) := by
      by_cases hne : acc = []
      · subst hne
        rw [if_neg (by simp [joinSegs])]
        rfl
      · rw [if_pos (joinSegs_ne_empty acc hacc hne),
          pathJoin_joinSegs acc p hacc hne hp]
    simp only [addPathDirs]
    rw [hcur, dirname_joinSegs acc p hacc hp,
      ih (acc ++ [p]) _ hacc' (fun s hs => hparts s (List.mem_cons_of_mem p hs)) y,
      mem_setAdd]
    constructor
    · rintro ((hd | rfl) | ⟨k, hk, rfl⟩)
      · exact Or.inl hd
      · exact Or.inr ⟨0, by simp, by simp⟩
      · refine Or.inr ⟨k + 1, by simpa using hk, ?_⟩
        simp [List.take_succ_cons]
    · rintro (hd | ⟨k, hk, rfl⟩)
      · exact Or.inl (Or.inl hd)
      · cases k with
        | zero => exact Or.inl (Or.inr (by simp))
        | succ j =>
          refine Or.inr ⟨j, by simpa using hk, ?_⟩
          simp [List.take_succ_cons]

theorem collectDirs_nodup (file_data : List FileInfo) : (collectDirs file_data).Nodup := by
  unfold collectDirs
  generalize hd : ([] : List String) = dirs
  have h0 : dirs.Nodup := hd ▸ List.nodup_nil
  clear hd
  induction file_data generalizing dirs with
  | nil => exact h0
  | cons fi rest ih => exact ih _ (addPathDirs_nodup _ _ _ h0)

theorem mem_collectDirs : ∀ (file_data : List FileInfo),
    (∀ fi ∈ file_data, ValidRelPath fi.relative_path) →
    ∀ y, y ∈ collectDirs file_data ↔
      ∃ fi ∈ file_data, ∃ k < (splitSep fi.relative_path).length,
        y = joinSegs ((splitSep fi.relative_path).take k) := by
  have key : ∀ (file_data : List FileInfo) (dirs : List String),
      (∀ fi ∈ file_data, ValidRelPath fi.relative_path) →
      ∀ y, y ∈ file_data.foldl (fun ds fi => addPathDirs ds "" (splitSep fi.relative_path)) dirs
        ↔ y ∈ dirs ∨ ∃ fi ∈ file_data, ∃ k < (splitSep fi.relative_path).length,
            y = joinSegs ((splitSep fi.relative_path).take k) := by
    intro file_data
    induction file_data with
    | nil => intro dirs _ y; simp
    | cons fi rest ih =>
      intro dirs h y
      rw [List.foldl_cons,
        ih _ (fun g hg => h g (List.mem_cons_of_mem fi hg)) y]
      have hstep := mem_addPathDirs (splitSep fi.relative_path) [] dirs (by simp)
        (h fi (List.mem_cons_self fi rest)) y
      simp only [List.nil_append] at hstep
      rw [show addPathDirs dirs "" (splitSep fi.relative_path)
          = addPathDirs dirs (joinSegs []) (splitSep fi.relative_path) from rfl, hstep]
      constructor
      · rintro ((hd | hfi) | ⟨g, hg, hk⟩)
        · exact Or.inl hd
        · exact Or.inr ⟨fi, List.mem_cons_self fi rest, hfi⟩
        · exact Or.inr ⟨g, List.mem_cons_of_mem fi hg, hk⟩
      · rintro (hd | ⟨g, hg, hk⟩)
        · exact Or.inl (Or.inl hd)
        · rcases List.mem_cons.mp hg with rfl | hg
          · exact Or.inl (Or.inr hk)
          · exact Or.inr ⟨g, hg, hk⟩
  intro file_data h y
  rw [collectDirs, key file_data [] h y]
  simp

theorem valid_take (p : String) (hp : ValidRelPath p) (k : Nat) :
    ∀ s ∈ (splitSep p).take k, ValidSeg s :=
  fun s hs => hp s (List.mem_of_mem_take hs)

theorem take_ne_nil_of_lt (l : List String) (k : Nat) (h1 : 1 ≤ k) :
    l.take k ≠ [] ∨ l = [] := by
  cases l with
  | nil => exact Or.inr rfl
  | cons a t =>
    left
    cases k with
    | zero => omega
    | succ j => simp [List.take_succ_cons]

theorem mem_dirList (file_data : List FileInfo)
    (h : ∀ fi ∈ file_data, ValidRelPath fi.relative_path) (dp : String) :
    dp ∈ dirList file_data ↔
      ∃ fi ∈ file_data, ∃ k, 1 ≤ k ∧ k < (splitSep fi.relative_path).length ∧
        dp = joinSegs ((splitSep fi.relative_path).take k) := by
  rw [dirList, mem_sortLe, List.mem_filter, mem_collectDirs file_data h dp]
  constructor
  · rintro ⟨⟨fi, hfi, k, hk, rfl⟩, hne⟩
    refine ⟨fi, hfi, k, ?_, hk, rfl⟩
    cases k with
    | zero => simp [joinSegs] at hne
    | succ j => omega
  · rintro ⟨fi, hfi, k, hk1, hklen, rfl⟩
    have hsne : splitSep fi.relative_path ≠ [] := splitSep_ne_nil _
    have htne : (splitSep fi.relative_path).take k ≠ [] := by
      rcases take_ne_nil_of_lt _ k hk1 with ht | ht
      · exact ht
      · exact absurd ht hsne
    refine ⟨⟨fi, hfi, k, hklen, rfl⟩, ?_⟩
    simpa using joinSegs_ne_empty _ (valid_take _ (h fi hfi) k) htne

theorem dirList_nodup (file_data : List FileInfo) : (dirList file_data).Nodup :=
  (sortLe_perm strLe _).symm.nodup ((collectDirs_nodup file_data).filter _)

theorem map_directory_path_gds (file_data : List FileInfo) :
    (get_directory_structure file_data).map (fun d => d.directory_path)
      = dirList file_data := by
  unfold get_directory_structure
  have hcomp : ((fun d : DirInfo => d.directory_path) ∘ mkDirInfo) = id := rfl
  rw [List.map_map, hcomp, List.map_id]

theorem dirList_shape (file_data : List FileInfo)
    (h : ∀ fi ∈ file_data, ValidRelPath fi.relative_path) (dp : String)
    (hdp : dp ∈ dirList file_data) :
    ∃ m : List String, (∀ s ∈ m, ValidSeg s) ∧ m ≠ [] ∧ dp = joinSegs m := by
  obtain ⟨fi, hfi, k, hk1, hklen, rfl⟩ := (mem_dirList file_data h dp).mp hdp
  refine ⟨_, valid_take _ (h fi hfi) k, ?_, rfl⟩
  rcases take_ne_nil_of_lt _ k hk1 with ht | ht
  · exact ht
  · exact absurd ht (splitSep_ne_nil _)

/-! ## Claim theorems: the hierarchy deriver -/

/-- C4: for every input sequence of records (with well-formed POSIX
relative paths, as the data model specifies), the emitted
`directory_path` values are exactly the non-empty proper segment-prefix
joins of the records' `relative_path` values — the final filename
segment and the empty root are excluded — each appearing exactly once;
in particular no directory without a surviving descendant record ever
appears. -/
theorem C4_hierarchy_exact_prefixes (file_data : List FileInfo)
    (h : ∀ fi ∈ file_data, ValidRelPath fi.relative_path) :
    ((get_directory_structure file_data).map (fun d => d.directory_path)).Nodup
    ∧ ∀ dp, dp ∈ (get_directory_structure file_data).map (fun d => d.directory_path) ↔
        ∃ fi ∈ file_data, ∃ k, 1 ≤ k ∧ k < (splitSep fi.relative_path).length ∧
          dp = joinSegs ((splitSep fi.relative_path).take k) := by
  rw [map_directory_path_gds]
  exact ⟨dirList_nodup file_data, fun dp => mem_dirList file_data h dp⟩

/-- C4 witness: one record at `a/b/c.txt`; its directory set is exactly
the two proper prefixes `a` and `a/b`. -/
theorem C4_witness :
    (∀ fi ∈ sampleFileData, ValidRelPath fi.relative_path)
    ∧ (((get_directory_structure sampleFileData).map (fun d => d.directory_path)).Nodup
      ∧ ∀ dp, dp ∈ (get_directory_structure sampleFileData).map (fun d => d.directory_path) ↔
          ∃ fi ∈ sampleFileData, ∃ k, 1 ≤ k ∧ k < (splitSep fi.relative_path).length ∧
            dp = joinSegs ((splitSep fi.relative_path).take k)) :=
  ⟨by decide, C4_hierarchy_exact_prefixes _ (by decide)⟩

/-- C8: every emitted directory record's `depth` is the segment count of
its `directory_path`, and joining `parent_directory` with
`directory_name` (the parent being empty at depth 1) reassembles
`directory_path` exactly. -/
theorem C8_depth_and_reassembly (file_data : List FileInfo)
    (h : ∀ fi ∈ file_data, ValidRelPath fi.relative_path) :
    ∀ d ∈ get_directory_structure file_data,
      d.depth = (splitSep d.directory_path).length
      ∧ (d.depth = 1 → d.parent_directory = "")
      ∧ pathJoin d.parent_directory d.directory_name = d.directory_path := by
  intro d hd
  obtain ⟨dp, hdp, rfl⟩ := List.mem_map.mp hd
  obtain ⟨m, hmv, hmne, rfl⟩ := dirList_shape file_data h dp hdp
  have hne : joinSegs m ≠ "" := joinSegs_ne_empty m hmv hmne
  have hsplit : splitSep (joinSegs m) = m := splitSep_joinSegs m hmv hmne
  have hdrop : m.dropLast ++ [m.getLast hmne] = m := List.dropLast_concat_getLast hmne
  have hdlv : ∀ s ∈ m.dropLast, ValidSeg s :=
    fun s hs => hmv s ((List.dropLast_sublist m).subset hs)
  have hlv : ValidSeg (m.getLast hmne) := hmv _ (List.getLast_mem hmne)
  have hdirname : dirname (joinSegs m) = joinSegs m.dropLast := by
    conv_lhs => rw [← hdrop]
    exact dirname_joinSegs _ _ hdlv hlv
  have hbase : basename (joinSegs m) = m.getLast hmne := by
    conv_lhs => rw [← hdrop]
    exact basename_joinSegs _ _ hdlv hlv
  refine ⟨?_, ?_, ?_⟩
  · show (if joinSegs m ≠ "" then (splitSep (joinSegs m)).length else 0)
      = (splitSep (joinSegs m)).length
    rw [if_pos hne]
  · intro hdep
    have hlen : m.length = 1 := by
      have : (if joinSegs m ≠ "" then (splitSep (joinSegs m)).length else 0) = 1 := hdep
      rwa [if_pos hne, hsplit] at this
    obtain ⟨x, hm⟩ := List.length_eq_one.mp hlen
    show (if joinSegs m ≠ "" then dirname (joinSegs m) else "") = ""
    rw [if_pos hne, hdirname, hm]
    rfl
  · show pathJoin (if joinSegs m ≠ "" then dirname (joinSegs m) else "")
      (if joinSegs m ≠ "" then basename (joinSegs m) else "") = joinSegs m
    rw [if_pos hne, if_pos hne, hdirname, hbase]
    by_cases hdl : m.dropLast = []
    · rw [hdl]
      show pathJoin "" (m.getLast hmne) = joinSegs m
      rw [pathJoin_empty_left _ hlv]
      conv_rhs => rw [← hdrop, hdl]
      rfl
    · rw [pathJoin_joinSegs _ _ hdlv hdl hlv, hdrop]

/-- C8 witness: instantiation on a single record at `a/b/c.txt`. -/
theorem C8_witness :
    (∀ fi ∈ sampleFileData, ValidRelPath fi.relative_path)
    ∧ ∀ d ∈ get_directory_structure sampleFileData,
      d.depth = (splitSep d.directory_path).length
      ∧ (d.depth = 1 → d.parent_directory = "")
      ∧ pathJoin d.parent_directory d.directory_name = d.directory_path :=
  ⟨by decide, C8_depth_and_reassembly _ (by decide)⟩

/-- C10: every emitted directory record has a non-empty
`directory_path`, depth at least 1 and a non-empty `directory_name`:
the root never appears as a record, so the `depth 0` fallback branches
of the record construction are unreachable. -/
theorem C10_no_root_record (file_data : List FileInfo)
    (h : ∀ fi ∈ file_data, ValidRelPath fi.relative_path) :
    ∀ d ∈ get_directory_structure file_data,
      d.directory_path ≠ "" ∧ 1 ≤ d.depth ∧ d.directory_name ≠ "" := by
  intro d hd
  obtain ⟨dp, hdp, rfl⟩ := List.mem_map.mp hd
  obtain ⟨m, hmv, hmne, rfl⟩ := dirList_shape file_data h dp hdp
  have hne : joinSegs m ≠ "" := joinSegs_ne_empty m hmv hmne
  have hdrop : m.dropLast ++ [m.getLast hmne] = m := List.dropLast_concat_getLast hmne
  have hdlv : ∀ s ∈ m.dropLast, ValidSeg s :=
    fun s hs => hmv s ((List.dropLast_sublist m).subset hs)
  have hlv : ValidSeg (m.getLast hmne) := hmv _ (List.getLast_mem hmne)
  have hbase : basename (joinSegs m) = m.getLast hmne := by
    conv_lhs => rw [← hdrop]
    exact basename_joinSegs _ _ hdlv hlv
  refine ⟨hne, ?_, ?_⟩
  · show 1 ≤ (if joinSegs m ≠ "" then (splitSep (joinSegs m)).length else 0)
    rw [if_pos hne]
    exact List.length_pos.mpr (splitSep_ne_nil _)
  · show (if joinSegs m ≠ "" then basename (joinSegs m) else "") ≠ ""
    rw [if_pos hne, hbase]
    exact hlv.1

/-- C10 witness: instantiation on a single record at `a/b/c.txt`. -/
theorem C10_witness :
    (∀ fi ∈ sampleFileData, ValidRelPath fi.relative_path)
    ∧ ∀ d ∈ get_directory_structure sampleFileData,
      d.directory_path ≠ "" ∧ 1 ≤ d.depth ∧ d.directory_name ≠ "" :=
  ⟨by decide, C10_no_root_record _ (by decide)⟩

/-! ## The walker characterized -/

theorem nameLeF_total : ∀ a b : String × FileMeta, nameLeF a b = true ∨ nameLeF b a = true :=
  fun a b => strLe_total a.1 b.1

theorem nameLeF_trans : ∀ a b c : String × FileMeta,
    nameLeF a b = true → nameLeF b c = true → nameLeF a c = true :=
  fun a b c => strLe_trans a.1 b.1 c.1

theorem nameLeW_total : ∀ a b : String × List VE, nameLeW a b = true ∨ nameLeW b a = true :=
  fun a b => strLe_total a.1 b.1

theorem recLe_total : ∀ a b : FileInfo, recLe a b = true ∨ recLe b a = true :=
  fun a b => strLe_total a.relative_path b.relative_path

theorem recLe_trans : ∀ a b c : FileInfo,
    recLe a b = true → recLe b c = true → recLe a c = true :=
  fun a b c => strLe_trans a.relative_path b.relative_path c.relative_path

/-- The walker/cleaner, fully characterized by the visit sequence: the
record list is the per-entry records sorted by relative path, and every
statistic is a fold over the visit sequence. -/
theorem clean_directory_eq (root_path : String) (t : FSTree) :
    clean_directory root_path (some t) =
      (sortLe recLe ((walkFiles root_path [] t).filterMap entryRecord),
       { total_files := (walkFiles root_path [] t).length,
         cleaned_files := (walkFiles root_path [] t).countP entryCleaned,
         cleaned_size := ((walkFiles root_path [] t).map entrySizeContrib).sum,
         errors := (walkFiles root_path [] t).filterMap entryError }) := by
  cases t with
  | file m => rfl
  | dir cs =>
    show (sortLe recLe ((walkFiles root_path [] (.dir cs)).foldl processEntry ([], initStats)).1,
        ((walkFiles root_path [] (.dir cs)).foldl processEntry ([], initStats)).2) = _
    rw [foldl_processEntry]
    simp [initStats]

theorem fileChildren_cleanChildren (dirpath : String) : ∀ cs : List (String × FSTree),
    fileChildren (cleanChildren dirpath cs) =
      (fileChildren cs).filter
        (fun fc => !(should_clean_file fc.1 (pathJoin dirpath fc.1) && fc.2.removeOk)) := by
  intro cs
  induction cs with
  | nil => rfl
  | cons c rest ih =>
    obtain ⟨n, t⟩ := c
    cases t with
    | file m =>
      simp only [cleanChildren]
      by_cases hdel : (should_clean_file n (pathJoin dirpath n) && m.removeOk) = true
      · have hdel' := hdel
        simp only [Bool.and_eq_true] at hdel'
        obtain ⟨h1, h2⟩ := hdel'
        rw [if_pos hdel, ih]
        simp [fileChildren, List.filter_cons, h1, h2]
      · rw [if_neg hdel]
        simp only [fileChildren, List.filterMap_cons] at ih ⊢
        simp only [List.filter_cons]
        rw [Bool.not_eq_true] at hdel
        simp [hdel, ih]
    | dir cs' =>
      simp only [cleanChildren]
      by_cases hhid : strStarts n "." = true
      · rw [if_pos hhid]
        simp only [fileChildren, List.filterMap_cons] at ih ⊢
        exact ih
      · rw [if_neg hhid]
        show fileChildren ((n, FSTree.dir (cleanChildren (pathJoin dirpath n) cs')) :: _) = _
        simp only [fileChildren, List.filterMap_cons] at ih ⊢
        exact ih

theorem walkSubs_cleanChildren (dirpath : String) (relSegs : List String) :
    ∀ cs : List (String × FSTree),
    (∀ p ∈ cs, ∀ (d : String) (r : List String),
      walkFiles d r (cleanTree d p.2) = (walkFiles d r p.2).filter entryKept) →
    walkSubs dirpath relSegs (cleanChildren dirpath cs)
      = (walkSubs dirpath relSegs cs).map (fun q => (q.1, q.2.filter entryKept)) := by
  intro cs
  induction cs with
  | nil => intro _; rfl
  | cons c rest ih =>
    intro hIH
    obtain ⟨n, t⟩ := c
    have hrest := ih fun p hp => hIH p (List.mem_cons_of_mem _ hp)
    cases t with
    | file m =>
      simp only [cleanChildren]
      by_cases hdel : (should_clean_file n (pathJoin dirpath n) && m.removeOk) = true
      · rw [if_pos hdel, hrest]
        rfl
      · rw [if_neg hdel]
        simp only [walkSubs]
        exact hrest
    | dir cs' =>
      simp only [cleanChildren]
      by_cases hhid : strStarts n "." = true
      · rw [if_pos hhid]
        simp only [walkSubs]
        rw [if_pos hhid, if_pos hhid]
        exact hrest
      · rw [if_neg hhid]
        show walkSubs dirpath relSegs
            ((n, FSTree.dir (cleanChildren (pathJoin dirpath n) cs')) :: cleanChildren dirpath rest)
          = _
        simp only [walkSubs]
        rw [if_neg hhid, if_neg hhid, List.map_cons, hrest]
        congr 1
        exact congrArg (Prod.mk n)
          (hIH (n, .dir cs') (List.mem_cons_self _ _) (pathJoin dirpath n) (relSegs ++ [n]))

theorem walk_cleanTree : ∀ t : FSTree, ∀ (d : String) (r : List String),
    walkFiles d r (cleanTree d t) = (walkFiles d r t).filter entryKept := by
  refine @FSTree.strongInd
    (fun t => ∀ (d : String) (r : List String),
      walkFiles d r (cleanTree d t) = (walkFiles d r t).filter entryKept) ?_ ?_
  · intro m d r; rfl
  · intro cs hIH d r
    show walkFiles d r (.dir (cleanChildren d cs)) = _
    simp only [walkFiles]
    rw [List.filter_append]
    congr 1
    · rw [fileChildren_cleanChildren d cs,
        ← filter_sortLe nameLeF _ nameLeF_total nameLeF_trans, List.filter_map]
      rfl
    · rw [walkSubs_cleanChildren d r cs hIH,
        ← map_sortLe nameLeW nameLeW (fun q => (q.1, q.2.filter entryKept)) (fun a b => rfl),
        List.map_map, List.filter_flatten, List.map_map]
      rfl

/-! ## Claim theorems: cleaned-size accounting and idempotence -/

theorem sum_contrib : ∀ l : List VisitEntry,
    (l.map entrySizeContrib).sum
      = ((l.filter entryIsJunk).map
          (fun e => if e.meta.getsizeOk then e.meta.size else 0)).sum := by
  intro l
  induction l with
  | nil => rfl
  | cons e m ih =>
    simp only [List.map_cons, List.sum_cons, List.filter_cons]
    cases hj : entryIsJunk e
    · simp [entrySizeContrib, hj, ih]
    · simp [entrySizeContrib, hj, ih]

theorem errors_eq_stat_failures : ∀ l : List VisitEntry,
    (∀ e ∈ l, entryIsJunk e = true → e.meta.removeOk = true) →
    l.filterMap entryError
      = (l.filter (fun e => !entryIsJunk e && !e.meta.statOk)).map
          (fun e => errMsg (entryFullPath e)) := by
  intro l
  induction l with
  | nil => intro _; rfl
  | cons e m ih =>
    intro h
    have hrest := ih fun e' he' => h e' (List.mem_cons_of_mem _ he')
    simp only [List.filterMap_cons, List.filter_cons]
    cases hj : entryIsJunk e
    · cases hs : e.meta.statOk
      · simp [entryError, hj, hs, hrest]
      · simp [entryError, hj, hs, hrest]
    · have hr := h e (List.mem_cons_self _ _) hj
      simp [entryError, hj, hr, hrest]

theorem filterMap_filter_none (f : α → Option β) (p : α → Bool) :
    ∀ l : List α, (∀ a ∈ l, p a = false → f a = none) →
      (l.filter p).filterMap f = l.filterMap f := by
  intro l
  induction l with
  | nil => intro _; rfl
  | cons a m ih =>
    intro h
    have hrest := ih fun a' ha' => h a' (List.mem_cons_of_mem _ ha')
    by_cases hp : p a = true
    · rw [List.filter_cons_of_pos hp, List.filterMap_cons, List.filterMap_cons]
      cases f a
      · exact hrest
      · rw [hrest]
    · have hp' : p a = false := by simpa using hp
      rw [List.filter_cons_of_neg (by simp [hp']), List.filterMap_cons,
        h a (List.mem_cons_self _ _) hp', hrest]

/-- C3 (amended): `cleaned_size` is the sum, over visited junk files, of
the size read before the deletion attempt, an unreadable size
contributing 0.  When every visited junk file's `os.remove` succeeds,
all visited junk files — including those with unreadable sizes — are
deleted (`cleaned_files` counts them all and they are gone from the
resulting tree), and the error list holds exactly the survivors whose
`stat` failed, so no junk file ever contributes an error. -/
theorem C3_cleaned_size_best_effort (root_path : String) (t : FSTree)
    (h : ∀ e ∈ walkFiles root_path [] t, entryIsJunk e = true → e.meta.removeOk = true) :
    (clean_directory root_path (some t)).2.cleaned_size
        = (((walkFiles root_path [] t).filter entryIsJunk).map
            (fun e => if e.meta.getsizeOk then e.meta.size else 0)).sum
    ∧ (clean_directory root_path (some t)).2.cleaned_files
        = ((walkFiles root_path [] t).filter entryIsJunk).length
    ∧ walkFiles root_path [] (cleanTree root_path t)
        = (walkFiles root_path [] t).filter (fun e => !entryIsJunk e)
    ∧ (clean_directory root_path (some t)).2.errors
        = ((walkFiles root_path [] t).filter
            (fun e => !entryIsJunk e && !e.meta.statOk)).map
              (fun e => errMsg (entryFullPath e)) := by
  simp only [clean_directory_eq]
  refine ⟨sum_contrib _, ?_, ?_, errors_eq_stat_failures _ h⟩
  · rw [List.countP_eq_length_filter]
    congr 1
    refine List.filter_congr ?_
    intro e he
    cases hj : entryIsJunk e
    · simp [entryCleaned, hj]
    · simp [entryCleaned, hj, h e he hj]
  · rw [walk_cleanTree t root_path []]
    refine List.filter_congr ?_
    intro e he
    cases hj : entryIsJunk e
    · simp [entryKept, hj]
    · simp [entryKept, hj, h e he hj]

/-- C3 witness: a junk file whose size read fails (`getsizeOk = false`)
next to a surviving file; the junk file is deleted, contributes 0 bytes
and no error. -/
theorem C3_witness :
    (∀ e ∈ walkFiles "/r" []
        (.dir [(".DS_Store", .file ⟨7, 0, false, true, true⟩),
               ("keep.txt", .file ⟨3, 1, true, true, true⟩)]),
      entryIsJunk e = true → e.meta.removeOk = true)
    ∧ ((clean_directory "/r"
        (some (.dir [(".DS_Store", .file ⟨7, 0, false, true, true⟩),
                     ("keep.txt", .file ⟨3, 1, true, true, true⟩)]))).2.cleaned_size
        = (((walkFiles "/r" [] (.dir [(".DS_Store", .file ⟨7, 0, false, true, true⟩),
                     ("keep.txt", .file ⟨3, 1, true, true, true⟩)])).filter entryIsJunk).map
            (fun e => if e.meta.getsizeOk then e.meta.size else 0)).sum
      ∧ (clean_directory "/r"
        (some (.dir [(".DS_Store", .file ⟨7, 0, false, true, true⟩),
                     ("keep.txt", .file ⟨3, 1, true, true, true⟩)]))).2.cleaned_files
        = ((walkFiles "/r" [] (.dir [(".DS_Store", .file ⟨7, 0, false, true, true⟩),
                     ("keep.txt", .file ⟨3, 1, true, true, true⟩)])).filter entryIsJunk).length
      ∧ walkFiles "/r" [] (cleanTree "/r"
          (.dir [(".DS_Store", .file ⟨7, 0, false, true, true⟩),
                 ("keep.txt", .file ⟨3, 1, true, true, true⟩)]))
        = (walkFiles "/r" [] (.dir [(".DS_Store", .file ⟨7, 0, false, true, true⟩),
                 ("keep.txt", .file ⟨3, 1, true, true, true⟩)])).filter
            (fun e => !entryIsJunk e)
      ∧ (clean_directory "/r"
        (some (.dir [(".DS_Store", .file ⟨7, 0, false, true, true⟩),
                     ("keep.txt", .file ⟨3, 1, true, true, true⟩)]))).2.errors
        = ((walkFiles "/r" [] (.dir [(".DS_Store", .file ⟨7, 0, false, true, true⟩),
                     ("keep.txt", .file ⟨3, 1, true, true, true⟩)])).filter
            (fun e => !entryIsJunk e && !e.meta.statOk)).map
              (fun e => errMsg (entryFullPath e))) :=
  ⟨by decide, C3_cleaned_size_best_effort "/r" _ (by decide)⟩

/-- C7: on a tree whose first run reported no errors, a second run on
the cleaned tree deletes nothing (`cleaned_files = 0`) and returns the
identical survivor sequence. -/
theorem C7_idempotent (root_path : String) (t : FSTree)
    (h : (clean_directory root_path (some t)).2.errors = []) :
    (clean_directory root_path (some (cleanTree root_path t))).2.cleaned_files = 0
    ∧ (clean_directory root_path (some (cleanTree root_path t))).1
        = (clean_directory root_path (some t)).1 := by
  simp only [clean_directory_eq] at h ⊢
  have hall := List.filterMap_eq_nil_iff.mp h
  have hjr : ∀ e ∈ walkFiles root_path [] t,
      entryIsJunk e = true → e.meta.removeOk = true := by
    intro e he hj
    cases hr : e.meta.removeOk
    · have := hall e he
      rw [entryError, if_pos hj, if_neg (by simp [hr])] at this
      exact absurd this (by simp)
    · rfl
  have hfilter : (walkFiles root_path [] t).filter entryKept
      = (walkFiles root_path [] t).filter (fun e => !entryIsJunk e) := by
    refine List.filter_congr ?_
    intro e he
    cases hj : entryIsJunk e
    · simp [entryKept, hj]
    · simp [entryKept, hj, hjr e he hj]
  rw [walk_cleanTree t root_path [], hfilter]
  constructor
  · rw [List.countP_eq_zero]
    intro e he
    have := (List.mem_filter.mp he).2
    simp only [entryCleaned]
    simp only [Bool.not_eq_true'] at this
    simp [this]
  · congr 1
    refine filterMap_filter_none entryRecord _ _ ?_
    intro e _ hp
    simp only [Bool.not_eq_false'] at hp
    rw [entryRecord, if_pos hp]

/-- C7 witness: a tree with one junk file, a survivor and a
subdirectory; the first run is error-free, so the theorem applies. -/
theorem C7_witness :
    (clean_directory "/r"
        (some (.dir [("b.txt", .file ⟨3, 7, true, true, true⟩),
                     (".DS_Store", .file ⟨10, 0, true, true, true⟩),
                     ("sub", .dir [("a.txt", .file ⟨5, 2, true, true, true⟩)])]))).2.errors = []
    ∧ ((clean_directory "/r" (some (cleanTree "/r"
          (.dir [("b.txt", .file ⟨3, 7, true, true, true⟩),
                 (".DS_Store", .file ⟨10, 0, true, true, true⟩),
                 ("sub", .dir [("a.txt", .file ⟨5, 2, true, true, true⟩)])])))).2.cleaned_files = 0
      ∧ (clean_directory "/r" (some (cleanTree "/r"
          (.dir [("b.txt", .file ⟨3, 7, true, true, true⟩),
                 (".DS_Store", .file ⟨10, 0, true, true, true⟩),
                 ("sub", .dir [("a.txt", .file ⟨5, 2, true, true, true⟩)])])))).1
        = (clean_directory "/r"
            (some (.dir [("b.txt", .file ⟨3, 7, true, true, true⟩),
                 (".DS_Store", .file ⟨10, 0, true, true, true⟩),
                 ("sub", .dir [("a.txt", .file ⟨5, 2, true, true, true⟩)])]))).1) :=
  ⟨by decide, C7_idempotent "/r" _ (by decide)⟩

/-! ## Distinctness of the walked paths -/

theorem mem_fileChildren : ∀ (cs : List (String × FSTree)) (nm : String × FileMeta),
    nm ∈ fileChildren cs → (nm.1, FSTree.file nm.2) ∈ cs := by
  intro cs nm h
  rw [fileChildren, List.mem_filterMap] at h
  obtain ⟨c, hc, heq⟩ := h
  obtain ⟨n, t⟩ := c
  cases t with
  | file m =>
    simp only [Option.some.injEq] at heq
    rw [← heq]
    exact hc
  | dir _ => simp at heq

theorem mem_walkSubs : ∀ (cs : List (String × FSTree)) (d : String) (rel : List String)
    (q : String × List VisitEntry), q ∈ walkSubs d rel cs →
    ∃ cs', (q.1, FSTree.dir cs') ∈ cs ∧ strStarts q.1 "." = false ∧
      q.2 = walkFiles (pathJoin d q.1) (rel ++ [q.1]) (.dir cs') := by
  intro cs
  induction cs with
  | nil => intro d rel q h; simp [walkSubs] at h
  | cons c rest ih =>
    intro d rel q h
    obtain ⟨n, t⟩ := c
    cases t with
    | file m =>
      obtain ⟨cs', h1, h2, h3⟩ := ih d rel q h
      exact ⟨cs', List.mem_cons_of_mem _ h1, h2, h3⟩
    | dir cs0 =>
      rw [walkSubs] at h
      by_cases hhid : strStarts n "." = true
      · rw [if_pos hhid] at h
        obtain ⟨cs', h1, h2, h3⟩ := ih d rel q h
        exact ⟨cs', List.mem_cons_of_mem _ h1, h2, h3⟩
      · rw [if_neg hhid] at h
        rcases List.mem_cons.mp h with rfl | h
        · exact ⟨cs0, List.mem_cons_self _ _, Bool.not_eq_true _ ▸ hhid, rfl⟩
        · obtain ⟨cs', h1, h2, h3⟩ := ih d rel q h
          exact ⟨cs', List.mem_cons_of_mem _ h1, h2, h3⟩

theorem walkSubs_names_sublist : ∀ (cs : List (String × FSTree)) (d : String)
    (rel : List String),
    ((walkSubs d rel cs).map Prod.fst).Sublist (cs.map Prod.fst) := by
  intro cs
  induction cs with
  | nil => intro d rel; simp [walkSubs]
  | cons c rest ih =>
    intro d rel
    obtain ⟨n, t⟩ := c
    cases t with
    | file m => exact (ih d rel).cons _
    | dir cs0 =>
      rw [walkSubs]
      by_cases hhid : strStarts n "." = true
      · rw [if_pos hhid]
        exact (ih d rel).cons _
      · rw [if_neg hhid]
        exact (ih d rel).cons₂ _

theorem map_filterMap_sublist (f : α → Option β) (g : β → γ) (h : α → γ)
    (hfg : ∀ a b, f a = some b → g b = h a) :
    ∀ l : List α, (((l.filterMap f).map g)).Sublist (l.map h) := by
  intro l
  induction l with
  | nil => simp
  | cons a m ih =>
    rw [List.filterMap_cons, List.map_cons]
    cases hfa : f a with
    | none => exact ih.cons _
    | some b =>
      rw [List.map_cons, hfg a b hfa]
      exact ih.cons₂ _

theorem fileChildren_names_sublist (cs : List (String × FSTree)) :
    ((fileChildren cs).map Prod.fst).Sublist (cs.map Prod.fst) :=
  map_filterMap_sublist _ Prod.fst Prod.fst
    (fun c nm heq => by
      obtain ⟨n, t⟩ := c
      cases t with
      | file m => simpa using (congrArg (fun o => (o.getD (n, m)).1) heq).symm
      | dir _ => simp at heq) cs

theorem walk_shape : ∀ t : FSTree, WfTree t → ∀ (d : String) (rel : List String),
    ∀ e ∈ walkFiles d rel t, ∃ suf, e.relSegs = rel ++ suf ∧ (∀ s ∈ suf, ValidSeg s)
      ∧ ValidSeg e.filename := by
  refine @FSTree.strongInd
    (fun t => WfTree t → ∀ (d : String) (rel : List String),
      ∀ e ∈ walkFiles d rel t, ∃ suf, e.relSegs = rel ++ suf ∧ (∀ s ∈ suf, ValidSeg s)
        ∧ ValidSeg e.filename) ?_ ?_
  · intro m _ d rel e he
    simp [walkFiles] at he
  · intro cs hIH hwf d rel e he
    cases hwf with
    | dir _ hnodup hvalid hchildren =>
    simp only [walkFiles] at he
    rcases List.mem_append.mp he with hA | hB
    · obtain ⟨fc, hfc, rfl⟩ := List.mem_map.mp hA
      have hmem := mem_fileChildren cs fc ((mem_sortLe _ _ _).mp hfc)
      exact ⟨[], by simp, by simp, hvalid _ hmem⟩
    · rw [List.mem_flatten] at hB
      obtain ⟨es, hes, hees⟩ := hB
      obtain ⟨q, hq, rfl⟩ := List.mem_map.mp hes
      obtain ⟨cs', hmem, _, heq⟩ := mem_walkSubs cs d rel q ((mem_sortLe _ _ _).mp hq)
      rw [heq] at hees
      obtain ⟨suf, hseg, hsufv, hfn⟩ :=
        hIH (q.1, .dir cs') hmem (hchildren _ hmem) (pathJoin d q.1) (rel ++ [q.1]) e hees
      refine ⟨q.1 :: suf, by rw [hseg]; simp, ?_, hfn⟩
      intro s hs
      rcases List.mem_cons.mp hs with rfl | hs
      · exact hvalid _ hmem
      · exact hsufv s hs

theorem nodup_flatten_tagged (rel : List String) :
    ∀ L : List (String × List (List String)),
    ((L.map Prod.fst).Nodup) →
    (∀ q ∈ L, (q.2).Nodup ∧ ∀ p ∈ q.2, ∃ suf, p = rel ++ q.1 :: suf) →
    ((L.map Prod.snd).flatten).Nodup := by
  intro L
  induction L with
  | nil => intro _ _; simp
  | cons q rest ih =>
    intro hnd hcomp
    rw [List.map_cons, List.flatten_cons, List.nodup_append]
    rw [List.map_cons, List.nodup_cons] at hnd
    refine ⟨(hcomp q (List.mem_cons_self _ _)).1,
      ih hnd.2 (fun q' hq' => hcomp q' (List.mem_cons_of_mem _ hq')), ?_⟩
    intro p hp hp'
    obtain ⟨suf, rfl⟩ := (hcomp q (List.mem_cons_self _ _)).2 p hp
    rw [List.mem_flatten] at hp'
    obtain ⟨l2, hl2, hpl2⟩ := hp'
    obtain ⟨q', hq', rfl⟩ := List.mem_map.mp hl2
    obtain ⟨suf', heq'⟩ := (hcomp q' (List.mem_cons_of_mem _ hq')).2 _ hpl2
    have hq1 : q.1 = q'.1 := by
      have hc := List.append_cancel_left heq'
      exact (List.cons_eq_cons.mp hc).1
    exact hnd.1 (hq1 ▸ List.mem_map_of_mem Prod.fst hq')

theorem walk_segPaths_nodup : ∀ t : FSTree, WfTree t → ∀ (d : String) (rel : List String),
    ((walkFiles d rel t).map segPath).Nodup := by
  refine @FSTree.strongInd
    (fun t => WfTree t → ∀ (d : String) (rel : List String),
      ((walkFiles d rel t).map segPath).Nodup) ?_ ?_
  · intro m _ d rel
    simp [walkFiles]
  · intro cs hIH hwf d rel
    cases hwf with
    | dir _ hnodup hvalid hchildren =>
    simp only [walkFiles]
    rw [List.map_append, List.nodup_append]
    refine ⟨?_, ?_, ?_⟩
    · rw [List.map_map,
        show (segPath ∘ (fun fc : String × FileMeta =>
            ({ dirpath := d, relSegs := rel, filename := fc.1, meta := fc.2 } : VisitEntry)))
          = (fun nm : String => rel ++ [nm]) ∘ Prod.fst from rfl,
        ← List.map_map]
      refine List.Nodup.map ?_ ?_
      · intro a b hab
        simpa using List.append_cancel_left hab
      · exact ((sortLe_perm nameLeF (fileChildren cs)).map Prod.fst).symm.nodup
          ((fileChildren_names_sublist cs).nodup hnodup)
    · rw [List.map_flatten, List.map_map,
        show ((List.map segPath) ∘ (Prod.snd : String × List VisitEntry → List VisitEntry))
          = Prod.snd ∘ (fun q : String × List VisitEntry => (q.1, q.2.map segPath)) from rfl,
        ← List.map_map]
      refine nodup_flatten_tagged rel _ ?_ ?_
      · rw [List.map_map,
          show ((Prod.fst : String × List (List String) → String)
              ∘ (fun q : String × List VisitEntry => (q.1, q.2.map segPath))) = Prod.fst from rfl]
        exact ((sortLe_perm nameLeW (walkSubs d rel cs)).map Prod.fst).symm.nodup
          ((walkSubs_names_sublist cs d rel).nodup hnodup)
      · intro q' hq'
        obtain ⟨q, hq, rfl⟩ := List.mem_map.mp hq'
        obtain ⟨cs', hmem, _, heq⟩ := mem_walkSubs cs d rel q ((mem_sortLe _ _ _).mp hq)
        constructor
        · show (q.2.map segPath).Nodup
          rw [heq]
          exact hIH (q.1, .dir cs') hmem (hchildren _ hmem) _ _
        · intro p hp
          rw [show (q.1, q.2.map segPath).2 = q.2.map segPath from rfl, heq] at hp
          obtain ⟨e, he, rfl⟩ := List.mem_map.mp hp
          obtain ⟨suf, hseg, _, _⟩ :=
            walk_shape (.dir cs') (hchildren _ hmem) (pathJoin d q.1) (rel ++ [q.1]) e he
          refine ⟨suf ++ [e.filename], ?_⟩
          rw [segPath, hseg]
          simp
    · intro p hpA hpB
      obtain ⟨e1, he1, rfl⟩ := List.mem_map.mp hpA
      obtain ⟨fc, _, rfl⟩ := List.mem_map.mp he1
      obtain ⟨e2, he2, hpeq⟩ := List.mem_map.mp hpB
      rw [List.mem_flatten] at he2
      obtain ⟨es, hes, hees⟩ := he2
      obtain ⟨q, hq, rfl⟩ := List.mem_map.mp hes
      obtain ⟨cs', hmem, _, heq⟩ := mem_walkSubs cs d rel q ((mem_sortLe _ _ _).mp hq)
      rw [heq] at hees
      obtain ⟨suf, hseg, _, _⟩ :=
        walk_shape (.dir cs') (hchildren _ hmem) (pathJoin d q.1) (rel ++ [q.1]) e2 hees
      have hlen := congrArg List.length hpeq
      rw [segPath, segPath, hseg] at hlen
      simp only [List.length_append, List.length_cons, List.length_singleton] at hlen
      omega

theorem entryRecord_relative_path (e : VisitEntry) (r : FileInfo)
    (h : entryRecord e = some r) : r.relative_path = entryRelPath e := by
  rw [entryRecord] at h
  by_cases hj : entryIsJunk e = true
  · rw [if_pos hj] at h
    simp at h
  · rw [if_neg hj] at h
    by_cases hs : e.meta.statOk = true
    · rw [if_pos hs] at h
      simp only [Option.some.injEq] at h
      rw [← h]
    · rw [if_neg hs] at h
      simp at h

/-- C6: on a well-formed tree (distinct, separator-free sibling names —
true of every real directory), the returned sequence is sorted ascending
by `relative_path` in the lexicographic string order and no two records
share a `relative_path`. -/
theorem C6_sorted_nodup (root_path : String) (t : FSTree) (h : WfTree t) :
    ((clean_directory root_path (some t)).1).Pairwise
        (fun a b => strLe a.relative_path b.relative_path = true)
    ∧ (((clean_directory root_path (some t)).1).map (fun r => r.relative_path)).Nodup := by
  simp only [clean_directory_eq]
  constructor
  · exact sortLe_pairwise recLe recLe_total recLe_trans _
  · have hperm : List.Perm
        ((sortLe recLe ((walkFiles root_path [] t).filterMap entryRecord)).map
          (fun r => r.relative_path))
        (((walkFiles root_path [] t).filterMap entryRecord).map (fun r => r.relative_path)) :=
      (sortLe_perm recLe _).map _
    refine hperm.symm.nodup ?_
    have hsub := map_filterMap_sublist entryRecord (fun r => r.relative_path) entryRelPath
      (fun e r he => entryRecord_relative_path e r he) (walkFiles root_path [] t)
    refine hsub.nodup ?_
    rw [show (entryRelPath : VisitEntry → String) = (joinSegs ∘ segPath) from rfl,
      ← List.map_map]
    refine List.Nodup.map_on ?_ (walk_segPaths_nodup t h root_path [])
    intro x hx y hy hxy
    obtain ⟨e1, he1, rfl⟩ := List.mem_map.mp hx
    obtain ⟨e2, he2, rfl⟩ := List.mem_map.mp hy
    obtain ⟨suf1, hseg1, hv1, hf1⟩ := walk_shape t h root_path [] e1 he1
    obtain ⟨suf2, hseg2, hv2, hf2⟩ := walk_shape t h root_path [] e2 he2
    simp only [List.nil_append] at hseg1 hseg2
    refine joinSegs_inj _ _ ?_ ?_ (by simp [segPath]) (by simp [segPath]) hxy
    · intro s hs
      rw [segPath, hseg1] at hs
      rcases List.mem_append.mp hs with hs | hs
      · exact hv1 s hs
      · rw [List.mem_singleton.mp hs]
        exact hf1
    · intro s hs
      rw [segPath, hseg2] at hs
      rcases List.mem_append.mp hs with hs | hs
      · exact hv2 s hs
      · rw [List.mem_singleton.mp hs]
        exact hf2

/-- C6 witness: a well-formed tree with a survivor in the root and one
in a subdirectory. -/
theorem C6_witness :
    WfTree (.dir [("b.txt", .file ⟨3, 7, true, true, true⟩),
                  ("sub", .dir [("a.txt", .file ⟨5, 2, true, true, true⟩)])])
    ∧ (((clean_directory "/r"
          (some (.dir [("b.txt", .file ⟨3, 7, true, true, true⟩),
                  ("sub", .dir [("a.txt", .file ⟨5, 2, true, true, true⟩)])]))).1).Pairwise
            (fun a b => strLe a.relative_path b.relative_path = true)
      ∧ (((clean_directory "/r"
          (some (.dir [("b.txt", .file ⟨3, 7, true, true, true⟩),
                  ("sub", .dir [("a.txt", .file ⟨5, 2, true, true, true⟩)])]))).1).map
            (fun r => r.relative_path)).Nodup) := by
  have hsub : WfTree (FSTree.dir [("a.txt", FSTree.file ⟨5, 2, true, true, true⟩)]) := by
    refine WfTree.dir _ (by decide) ?_ ?_
    · intro p hp
      rw [List.mem_singleton] at hp
      subst hp
      decide
    · intro p hp
      rw [List.mem_singleton] at hp
      subst hp
      exact WfTree.file _
  have hwf : WfTree (.dir [("b.txt", .file ⟨3, 7, true, true, true⟩),
      ("sub", .dir [("a.txt", .file ⟨5, 2, true, true, true⟩)])]) := by
    refine WfTree.dir _ (by decide) ?_ ?_
    · intro p hp
      rcases List.mem_cons.mp hp with rfl | hp
      · decide
      · rw [List.mem_singleton] at hp
        subst hp
        decide
    · intro p hp
      rcases List.mem_cons.mp hp with rfl | hp
      · exact WfTree.file _
      · rw [List.mem_singleton] at hp
        subst hp
        exact hsub
  exact ⟨hwf, C6_sorted_nodup "/r" _ hwf⟩

